import Mathlib

/-!
# Verification of `vitest-temporary-fixture`

Shallow embedding of `src/fixture.ts` (synchronous materializer),
`src/fixture-async.ts` (asynchronous materializer) and the thin
`TestFixtures` wrappers, together with proofs about the claims of the
specification.

Modelling conventions:

* Filesystem paths are lists of segments of an absolute path
  (`/tmp/a/b` is `["tmp", "a", "b"]`).  `path.normalize` /
  `path.resolve` resolve `.` and `..` segments without touching the
  filesystem, exactly as Node's `path` module does for absolute paths.
* JavaScript values appearing in fixture contents are modelled by
  `RawValue`.  Plain-object identity (needed by the `seen`-set cycle
  detection, which compares by identity) is modelled by a heap: a
  `RawValue.obj i` is a reference to the `i`-th mapping of a `Heap`.
  A `Fixture` class instance is `RawValue.fixture type content`; for a
  `dir` fixture the content is itself a heap reference, which preserves
  JavaScript's aliasing of the underlying mapping object.
* The process-wide mutable `allowedPaths` set, the filesystem effects
  and the mutated `symlinks` table are threaded explicitly through
  `MState` / `SymTable`.
* Exceptions are modelled by `Except Err`; recursion over possibly
  cyclic object graphs is made total with a fuel parameter (`none`
  meaning fuel ran out, which corresponds to the JavaScript stack
  overflowing on unbounded recursion).
-/

/-- A filesystem path, as the list of segments of an absolute path. -/
abbrev FsPath := List String

/-- The four fixture kinds of `type FixtureType = 'file' | 'dir' | 'link' | 'symlink'`. -/
inductive FixtureType where
  | file
  | dir
  | link
  | symlink
deriving DecidableEq, Repr

/-- Identity of a plain-object mapping in the JavaScript heap. -/
abbrev ObjId := Nat

/-- A JavaScript value that can appear as fixture (dir) content.

`str`/`bytes` are strings and `Buffer`/`Uint8Array` byte sequences
(merged: the code treats the two byte shapes identically), `num`,
`boolv`, `nullv`, `undef` are the remaining primitive shapes, `obj` is a
reference to a plain-object mapping in the heap, and `fixture` is an
already-constructed `Fixture` class instance carrying its `type` and
`content` fields. -/
inductive RawValue where
  | str (s : String)
  | bytes (bs : List Nat)
  | num (n : Int)
  | boolv (b : Bool)
  | nullv
  | undef
  | obj (id : ObjId)
  | fixture (t : FixtureType) (content : RawValue)
deriving DecidableEq, Repr

/-- The JavaScript heap of plain-object mappings: index `i` holds the
entry list (`Object.entries` order) of mapping `i`. -/
abbrev Heap := List (List (String × RawValue))

/-- The entries of mapping `i` (a dangling id has no entries). -/
def heapEntries (h : Heap) (i : ObjId) : List (String × RawValue) :=
  h.getD i []

/-- The error kinds thrown by the materializer (messages elided, kinds kept).

* `invalidContent` — `rawToType`'s "Invalid fixture content" error;
* `dirNotObject`, `fileContentInvalid`, `linkContentInvalid` — the
  `assertValidContent` `TypeError`s;
* `cycleDetected entry` — "Cycle detected in fixture contents at `entry`";
* `entriesOfNull` — the `TypeError` V8 throws for `Object.entries(null)`;
* `illegalPath parent` — "Illegal path. Creating, or linking to, path
  `parent` is not allowed";
* `missingTarget` — `checkIfPathExists`'s "A fixture needs to be created
  in a subdirectory of the root" error on `ENOENT`;
* `fsError` — a failure of the underlying filesystem operation itself
  (e.g. `linkSync` on a missing target). -/
inductive Err where
  | invalidContent
  | dirNotObject
  | fileContentInvalid
  | linkContentInvalid
  | cycleDetected (entry : String)
  | entriesOfNull
  | illegalPath (parent : FsPath)
  | missingTarget
  | fsError
deriving DecidableEq, Repr

/-- The ambient process environment: `process.cwd()` and `os.tmpdir()`. -/
structure Env where
  cwd : FsPath
  tmp : FsPath
deriving DecidableEq, Repr

/- ### Path arithmetic (Node's `path` module on absolute paths) -/

/-- Split a character list on `/`, dropping empty segments (`cur` holds
the characters of the current segment, in reverse). -/
def splitChars : List Char → List Char → List String
  | cur, [] => if cur = [] then [] else [String.mk cur.reverse]
  | cur, c :: cs =>
    if c = '/' then
      if cur = [] then splitChars [] cs
      else String.mk cur.reverse :: splitChars [] cs
    else splitChars (c :: cur) cs

/-- Split a path string on `/`, dropping empty segments. -/
def splitPath (s : String) : List String :=
  splitChars [] s.data

/-- Whether a path string is absolute. -/
def isAbsolutePath (s : String) : Bool :=
  match s.data with
  | [] => false
  | c :: _ => c = '/'

/-- Resolve `.` and `..` segments of an absolute path; `..` at the root
stays at the root, as in Node's `path.normalize`/`path.resolve` for
absolute paths. -/
def normSegs (segs : List String) : List String :=
  segs.foldl
    (fun acc seg =>
      if seg = "." ∨ seg = "" then acc
      else if seg = ".." then acc.dropLast
      else acc ++ [seg])
    []

/-- `path.dirname` on a normalized absolute path. -/
def dirnameSegs (p : FsPath) : FsPath :=
  p.dropLast

/-- `path.resolve(base, target)`: an absolute `target` wins, a relative
`target` is appended to `base`; the result is normalized. -/
def resolvePath (base : FsPath) (target : String) : FsPath :=
  if isAbsolutePath target then normSegs (splitPath target)
  else normSegs (base ++ splitPath target)

/-- `path.join(p, name)`; the normalization of the joined path is
performed by `path.normalize` at the head of the recursive
`Fixture.make` call it is passed to, so plain concatenation suffices
here. -/
def joinSegs (p : FsPath) (name : String) : FsPath :=
  p ++ splitPath name

/-- `r` is `p` itself or an ancestor of `p` (segment-wise prefix). -/
def isUnder (r p : FsPath) : Bool :=
  r = p.take r.length

/- ### Module state of `fixture.ts` -/

/-- One filesystem operation, in program order (used to state that the
sync and async variants perform the same operations in the same order). -/
inductive TraceOp where
  | mkdirOp (p : FsPath)
  | writeOp (p : FsPath)
  | linkOp (target p : FsPath)
  | statOp (p : FsPath)
  | symlinkOp (target p : FsPath) (junction : Bool)
deriving DecidableEq, Repr

/-- The filesystem contents the materializer can create. A symlink
records its target and whether it was created with the `'junction'`
type tag. -/
structure FS where
  dirs : List FsPath
  files : List (FsPath × RawValue)
  hardlinks : List (FsPath × FsPath)
  symlinks : List (FsPath × FsPath × Bool)
deriving DecidableEq, Repr

/-- Materializer state: the filesystem, the process-wide `allowedPaths`
set (insertion-ordered, no duplicates, like a JS `Set`), and the trace
of filesystem operations performed so far. -/
structure MState where
  fs : FS
  allowed : List FsPath
  trace : List TraceOp
deriving DecidableEq, Repr

/-- The `symlinks` accumulator object of `Fixture.make`: insertion-ordered
mapping from symlink path to resolved target. -/
abbrev SymTable := List (FsPath × FsPath)

/-- JS `Set.prototype.add`: append if not present. -/
def insertPath (l : List FsPath) (p : FsPath) : List FsPath :=
  if p ∈ l then l else l ++ [p]

/-- Assignment `table[k] = v` on a plain object: overwrite in place if
the key exists (keeping its position), append otherwise. -/
def upsertTable : SymTable → FsPath → FsPath → SymTable
  | [], k, v => [(k, v)]
  | (k', v') :: rest, k, v =>
    if k' = k then (k', v) :: rest else (k', v') :: upsertTable rest k v

/-- Same upsert for the file store (`fs.writeFileSync` overwrites). -/
def upsertFile : List (FsPath × RawValue) → FsPath → RawValue → List (FsPath × RawValue)
  | [], k, v => [(k, v)]
  | (k', v') :: rest, k, v =>
    if k' = k then (k', v) :: rest else (k', v') :: upsertFile rest k v

/-- The nonempty prefixes of a path, shortest first. -/
def prefixesOf (p : FsPath) : List FsPath :=
  (List.range p.length).map (fun i => p.take (i + 1))

/-- `mkdirp.sync`: create the directory and any missing intermediate
directories; creating an existing directory is not an error. -/
def mkdirpFs (fs : FS) (p : FsPath) : FS :=
  { fs with dirs := fs.dirs ++ (prefixesOf p).filter (fun q => ¬ q ∈ fs.dirs) }

/-- Whether some regular file (or hard link to one) lives at `p`. -/
def fileExistsAt (fs : FS) (p : FsPath) : Bool :=
  fs.files.any (fun e => e.1 = p) ∨ fs.hardlinks.any (fun e => e.1 = p)

/-- Look up a symlink by its path. -/
def symlinkLookup (fs : FS) (p : FsPath) : Option (FsPath × Bool) :=
  (fs.symlinks.find? (fun e => e.1 = p)).map (fun e => e.2)

/-- `fs.statSync`, following symlink chains (with fuel against symlink
loops, which the claims never exercise): `some isDirectory` when the
path exists, `none` for `ENOENT`. -/
def statPath (fs : FS) : Nat → FsPath → Option Bool
  | 0, _ => none
  | fuel + 1, p =>
    if p ∈ fs.dirs then some true
    else if fileExistsAt fs p then some false
    else
      match symlinkLookup fs p with
      | some (t, _) => statPath fs fuel t
      | none => none

/- ### `fixture.ts`: module-level helpers (synchronous variant) -/

/-- `resetAllowedPaths()`: clear the set, then add `process.cwd()` and
`os.tmpdir()` in that order. -/
def resetAllowedPaths (env : Env) : List FsPath :=
  insertPath (insertPath [] env.cwd) env.tmp

/-- `checkIfPathExists(pathIn)`: `fs.statSync`, rethrowing `ENOENT` as
the "A fixture needs to be created in a subdirectory of the root"
error; returns whether the path is a directory. -/
def checkIfPathExists (fs : FS) (pathIn : FsPath) : Except Err Bool :=
  match statPath fs (fs.symlinks.length + 1) pathIn with
  | some isDir => .ok isDir
  | none => .error .missingTarget

/-- `checkIfPathIsAllowed(newPath)`: the immediate parent of `newPath`
must be exactly an element of the allowed set, else the "Illegal path"
error naming that parent is thrown. -/
def checkIfPathIsAllowed (allowed : List FsPath) (newPath : FsPath) : Except Err Unit :=
  let dirname := dirnameSegs newPath
  if dirname ∈ allowed then .ok ()
  else .error (.illegalPath dirname)

/-- `rawToType(content)`: `Fixture` instances keep their type, strings
and byte sequences are files, anything of `typeof === 'object'` — which
in JavaScript includes `null` — is a directory, and every other shape
throws "Invalid fixture content". -/
def rawToType : RawValue → Except Err FixtureType
  | .fixture t _ => .ok t
  | .str _ => .ok .file
  | .bytes _ => .ok .file
  | .nullv => .ok .dir
  | .obj _ => .ok .dir
  | .num _ => .error .invalidContent
  | .boolv _ => .error .invalidContent
  | .undef => .error .invalidContent

/-- `typeof v === 'object'` (true for plain objects, `Fixture`
instances, `Buffer`/`Uint8Array`, and `null`). -/
def jsTypeofIsObject : RawValue → Bool
  | .bytes _ => true
  | .nullv => true
  | .obj _ => true
  | .fixture _ _ => true
  | _ => false

/-- The string stored in a `Fixture`'s `type` field. -/
def typeName : FixtureType → String
  | .file => "file"
  | .dir => "dir"
  | .link => "link"
  | .symlink => "symlink"

/-- `Object.entries(v)`: entries of a mapping from the heap; a
`TypeError` on `null`/`undefined`; index/element pairs for strings and
byte sequences; no entries for the remaining primitives; and the own
enumerable `type`/`content` properties of a `Fixture` instance. -/
def jsEntries (h : Heap) : RawValue → Except Err (List (String × RawValue))
  | .obj i => .ok (heapEntries h i)
  | .nullv => .error .entriesOfNull
  | .undef => .error .entriesOfNull
  | .str s => .ok (s.data.enum.map (fun e => (toString e.1, RawValue.str (String.mk [e.2]))))
  | .bytes bs => .ok (bs.enum.map (fun e => (toString e.1, RawValue.num e.2)))
  | .num _ => .ok []
  | .boolv _ => .ok []
  | .fixture t c => .ok [("type", .str (typeName t)), ("content", c)]

/-- The entry loop of `validateDirContents(content, seen)`, with the
mutated `seen` set threaded through (returned on success, since the
JavaScript `Set` is shared by reference across sibling iterations).
An entry classified `dir` that is a plain object (not a `Fixture`
instance) is checked against `seen` and recursed into via `step` (the
recursive `validateDirContents` call on the nested mapping); a `null`
entry is also classified `dir` (`typeof null === 'object'`) and blows up
with a `TypeError` when `Object.entries(null)` runs in the recursive
call. -/
def validateEntries (step : ObjId → List ObjId → Option (Except Err (List ObjId))) :
    List (String × RawValue) → List ObjId → Option (Except Err (List ObjId))
  | [], seen => some (.ok seen)
  | (name, v) :: rest, seen =>
    match rawToType v with
    | .error e => some (.error e)
    | .ok _ =>
      match v with
      | .obj m =>
        if m ∈ seen then some (.error (.cycleDetected name))
        else
          match step m (m :: seen) with
          | none => none
          | some (.error e) => some (.error e)
          | some (.ok seen') => validateEntries step rest seen'
      | .nullv => some (.error .entriesOfNull)
      | _ => validateEntries step rest seen

/-- The recursive `validateDirContents(currentDirContent, seen)` call on
a nested mapping; fuel bounds the recursion depth through the (possibly
cyclic) heap. -/
def validateInto (h : Heap) : Nat → ObjId → List ObjId → Option (Except Err (List ObjId))
  | 0, _, _ => none
  | fuel + 1, m, seen => validateEntries (validateInto h fuel) (heapEntries h m) seen

/-- `validateDirContents(content, seen)`. -/
def validateDirContents (h : Heap) (fuel : Nat) (content : RawValue) (seen : List ObjId) :
    Option (Except Err (List ObjId)) :=
  match jsEntries h content with
  | .error e => some (.error e)
  | .ok entries => validateEntries (validateInto h fuel) entries seen

/-- `assertValidContent(type, content)`. -/
def assertValidContent (h : Heap) (fuel : Nat) (t : FixtureType) (content : RawValue) :
    Option (Except Err Unit) :=
  match t with
  | .dir =>
    if jsTypeofIsObject content then
      let seen0 : List ObjId := match content with | .obj m => [m] | _ => []
      match validateDirContents h fuel content seen0 with
      | none => none
      | some (.error e) => some (.error e)
      | some (.ok _) => some (.ok ())
    else some (.error .dirNotObject)
  | .file =>
    match content with
    | .str _ => some (.ok ())
    | .bytes _ => some (.ok ())
    | _ => some (.error .fileContentInvalid)
  | .link =>
    match content with
    | .str _ => some (.ok ())
    | _ => some (.error .linkContentInvalid)
  | .symlink =>
    match content with
    | .str _ => some (.ok ())
    | _ => some (.error .linkContentInvalid)

/-- `new Fixture(type, content)`: validate, then expose `type` and
`content`. -/
def fixtureNew (h : Heap) (fuel : Nat) (t : FixtureType) (content : RawValue) :
    Option (Except Err RawValue) :=
  match assertValidContent h fuel t content with
  | none => none
  | some (.error e) => some (.error e)
  | some (.ok _) => some (.ok (.fixture t content))

/-- `rawToFixture(content)`: an existing `Fixture` instance is passed
through unvalidated; a raw value is classified and validated by the
`Fixture` constructor. -/
def rawToFixture (h : Heap) (fuel : Nat) (content : RawValue) :
    Option (Except Err (FixtureType × RawValue)) :=
  match content with
  | .fixture t c => some (.ok (t, c))
  | _ =>
    match rawToType content with
    | .error e => some (.error e)
    | .ok t =>
      match assertValidContent h fuel t content with
      | none => none
      | some (.error e) => some (.error e)
      | some (.ok _) => some (.ok (t, content))

/-- `getSymLinkTargetType(targetPath)`: stat the target (its existence
is mandatory) and pick `'junction'` for directories, `'file'` otherwise. -/
def getSymLinkTargetType (fs : FS) (targetPath : FsPath) : Except Err Bool :=
  match checkIfPathExists fs targetPath with
  | .error e => .error e
  | .ok isDir => .ok isDir

/-- The symlink flush loop at the end of the top-level `Fixture.make`:
for each pending `(symlinkPath, target)`, re-check containment of both
paths, determine the target's type (existence mandatory), and create the
symlink.  Any failure aborts the loop with the filesystem as already
mutated. -/
def flushSymlinks : MState → SymTable → MState × Option Err
  | st, [] => (st, none)
  | st, (symlinkPath, target) :: rest =>
    match checkIfPathIsAllowed st.allowed symlinkPath with
    | .error e => (st, some e)
    | .ok _ =>
      match checkIfPathIsAllowed st.allowed target with
      | .error e => (st, some e)
      | .ok _ =>
        match getSymLinkTargetType st.fs target with
        | .error e => (st, some e)
        | .ok junction =>
          flushSymlinks
            { st with
                fs := { st.fs with
                          symlinks := st.fs.symlinks ++ [(symlinkPath, target, junction)] },
                trace := st.trace ++
                  [TraceOp.statOp target, TraceOp.symlinkOp target symlinkPath junction] }
            rest

/-- The `for (const [name, nestedFixture] of Object.entries(fixture.content))`
loop of `Fixture.make`'s `dir` branch: each entry is materialized at
`path.join(normalizedPath, name)` with the shared `symlinks` table; the
first thrown error unwinds the loop. `step` is the recursive
`Fixture.make` call (at one less fuel). -/
def makeEntries
    (step : MState → FsPath → RawValue → Option SymTable → Option (MState × SymTable × Option Err))
    (base : FsPath) :
    MState → SymTable → List (String × RawValue) → Option (MState × SymTable × Option Err)
  | st, sy, [] => some (st, sy, none)
  | st, sy, (name, v) :: rest =>
    match step st (joinSegs base name) v (some sy) with
    | none => none
    | some (st', sy', some e) => some (st', sy', some e)
    | some (st', sy', none) => makeEntries step base st' sy' rest

/-- The kind dispatch of `Fixture.make` (the `if/else if` chain on
`fixture.type`), with the recursion into directory entries abstracted as
`step`. -/
def makeDispatch (h : Heap)
    (step : MState → FsPath → RawValue → Option SymTable → Option (MState × SymTable × Option Err))
    (isRoot : Bool) (st : MState) (normalizedPath : FsPath)
    (ftype : FixtureType) (fcontent : RawValue) (symlinks : SymTable) :
    Option (MState × SymTable × Option Err) :=
  match ftype with
  | .dir =>
    match checkIfPathIsAllowed st.allowed normalizedPath with
    | .error e => some (st, symlinks, some e)
    | .ok _ =>
      let st := { st with
                    fs := mkdirpFs st.fs normalizedPath,
                    trace := st.trace ++ [TraceOp.mkdirOp normalizedPath] }
      let st := { st with
                    allowed := insertPath (if isRoot then [] else st.allowed) normalizedPath }
      match jsEntries h fcontent with
      | .error e => some (st, symlinks, some e)
      | .ok entries => makeEntries step normalizedPath st symlinks entries
  | .file =>
    match checkIfPathIsAllowed st.allowed normalizedPath with
    | .error e => some (st, symlinks, some e)
    | .ok _ =>
      some ({ st with
                fs := { st.fs with files := upsertFile st.fs.files normalizedPath fcontent },
                trace := st.trace ++ [TraceOp.writeOp normalizedPath] },
            symlinks, none)
  | .link =>
    match fcontent with
    | .str s =>
      let normalizedPathDirName := dirnameSegs normalizedPath
      let existingPath := resolvePath normalizedPathDirName s
      match checkIfPathIsAllowed st.allowed existingPath with
      | .error e => some (st, symlinks, some e)
      | .ok _ =>
        match checkIfPathIsAllowed st.allowed normalizedPath with
        | .error e => some (st, symlinks, some e)
        | .ok _ =>
          if fileExistsAt st.fs existingPath then
            some ({ st with
                      fs := { st.fs with
                                hardlinks := st.fs.hardlinks ++ [(normalizedPath, existingPath)] },
                      trace := st.trace ++ [TraceOp.linkOp existingPath normalizedPath] },
                  symlinks, none)
          else some (st, symlinks, some .fsError)
    | _ => some (st, symlinks, some .fsError)
  | .symlink =>
    match fcontent with
    | .str s =>
      let targetPath := resolvePath (dirnameSegs normalizedPath) s
      some (st, upsertTable symlinks normalizedPath targetPath, none)
    | _ => some (st, symlinks, some .fsError)

/-- `Fixture.make(pathIn, content, symlinks = null)` of `fixture.ts`.

The `typeof pathIn !== 'string'` guard is statically satisfied by the
embedding's types. `symlinksIn = none` is the `null` default marking the
top-level (root) call. The result is `none` when fuel runs out
(unbounded JavaScript recursion), otherwise the final module state, the
symlinks table, and the thrown error if any. -/
def Fixture.make (env : Env) (h : Heap) :
    Nat → MState → FsPath → RawValue → Option SymTable →
    Option (MState × SymTable × Option Err)
  | 0, _, _, _, _ => none
  | fuel + 1, st, pathIn, content, symlinksIn =>
    let normalizedPath := normSegs pathIn
    match rawToFixture h (fuel + 1) content with
    | none => none
    | some (.error e) => some (st, symlinksIn.getD [], some e)
    | some (.ok (ftype, fcontent)) =>
      let isRoot := symlinksIn.isNone
      let symlinks := symlinksIn.getD []
      let st := if isRoot then { st with allowed := resetAllowedPaths env } else st
      match makeDispatch h (fun st p v sy => Fixture.make env h fuel st p v sy)
              isRoot st normalizedPath ftype fcontent symlinks with
      | none => none
      | some (st', sy', some e) => some (st', sy', some e)
      | some (st', sy', none) =>
        if isRoot then
          let flushed := flushSymlinks st' sy'
          some (flushed.1, sy', flushed.2)
        else some (st', sy', none)

/- ### `fixture-async.ts`: the suspend-at-I/O variant

`fixture-async.ts` is a module of its own with its own copies of the
module-level helpers and its own process-wide `allowedPaths` set; every
filesystem call is awaited.  Awaiting an operation suspends until it
completes and introduces no parallelism, so each `await e` embeds to the
same sequencing as the synchronous call; the module is embedded
separately below, mirroring its own source text. -/

namespace FixtureAsync

/-- `resetAllowedPaths()` of `fixture-async.ts`. -/
def resetAllowedPaths (env : Env) : List FsPath :=
  insertPath (insertPath [] env.cwd) env.tmp

/-- `checkIfPathExists(pathIn)` of `fixture-async.ts` (`await
fsPromises.stat`, `ENOENT` rethrown as the subdirectory error). -/
def checkIfPathExists (fs : FS) (pathIn : FsPath) : Except Err Bool :=
  match statPath fs (fs.symlinks.length + 1) pathIn with
  | some isDir => .ok isDir
  | none => .error .missingTarget

/-- `checkIfPathIsAllowed(newPath)` of `fixture-async.ts`. -/
def checkIfPathIsAllowed (allowed : List FsPath) (newPath : FsPath) : Except Err Unit :=
  let dirname := dirnameSegs newPath
  if dirname ∈ allowed then .ok ()
  else .error (.illegalPath dirname)

/-- `rawToType(content)` of `fixture-async.ts`. -/
def rawToType : RawValue → Except Err FixtureType
  | .fixture t _ => .ok t
  | .str _ => .ok .file
  | .bytes _ => .ok .file
  | .nullv => .ok .dir
  | .obj _ => .ok .dir
  | .num _ => .error .invalidContent
  | .boolv _ => .error .invalidContent
  | .undef => .error .invalidContent

/-- The entry loop of `validateDirContents` of `fixture-async.ts`. -/
def validateEntries (step : ObjId → List ObjId → Option (Except Err (List ObjId))) :
    List (String × RawValue) → List ObjId → Option (Except Err (List ObjId))
  | [], seen => some (.ok seen)
  | (name, v) :: rest, seen =>
    match rawToType v with
    | .error e => some (.error e)
    | .ok _ =>
      match v with
      | .obj m =>
        if m ∈ seen then some (.error (.cycleDetected name))
        else
          match step m (m :: seen) with
          | none => none
          | some (.error e) => some (.error e)
          | some (.ok seen') => validateEntries step rest seen'
      | .nullv => some (.error .entriesOfNull)
      | _ => validateEntries step rest seen

/-- Recursion into a nested mapping, `fixture-async.ts` variant. -/
def validateInto (h : Heap) : Nat → ObjId → List ObjId → Option (Except Err (List ObjId))
  | 0, _, _ => none
  | fuel + 1, m, seen => validateEntries (validateInto h fuel) (heapEntries h m) seen

/-- `validateDirContents(content, seen)` of `fixture-async.ts`. -/
def validateDirContents (h : Heap) (fuel : Nat) (content : RawValue) (seen : List ObjId) :
    Option (Except Err (List ObjId)) :=
  match jsEntries h content with
  | .error e => some (.error e)
  | .ok entries => validateEntries (validateInto h fuel) entries seen

/-- `assertValidContent(type, content)` of `fixture-async.ts`. -/
def assertValidContent (h : Heap) (fuel : Nat) (t : FixtureType) (content : RawValue) :
    Option (Except Err Unit) :=
  match t with
  | .dir =>
    if jsTypeofIsObject content then
      let seen0 : List ObjId := match content with | .obj m => [m] | _ => []
      match validateDirContents h fuel content seen0 with
      | none => none
      | some (.error e) => some (.error e)
      | some (.ok _) => some (.ok ())
    else some (.error .dirNotObject)
  | .file =>
    match content with
    | .str _ => some (.ok ())
    | .bytes _ => some (.ok ())
    | _ => some (.error .fileContentInvalid)
  | .link =>
    match content with
    | .str _ => some (.ok ())
    | _ => some (.error .linkContentInvalid)
  | .symlink =>
    match content with
    | .str _ => some (.ok ())
    | _ => some (.error .linkContentInvalid)

/-- `new FixtureAsync(type, content)`. -/
def fixtureNew (h : Heap) (fuel : Nat) (t : FixtureType) (content : RawValue) :
    Option (Except Err RawValue) :=
  match assertValidContent h fuel t content with
  | none => none
  | some (.error e) => some (.error e)
  | some (.ok _) => some (.ok (.fixture t content))

/-- `rawToFixture(content)` of `fixture-async.ts`. -/
def rawToFixture (h : Heap) (fuel : Nat) (content : RawValue) :
    Option (Except Err (FixtureType × RawValue)) :=
  match content with
  | .fixture t c => some (.ok (t, c))
  | _ =>
    match rawToType content with
    | .error e => some (.error e)
    | .ok t =>
      match assertValidContent h fuel t content with
      | none => none
      | some (.error e) => some (.error e)
      | some (.ok _) => some (.ok (t, content))

/-- `getSymLinkTargetType(targetPath)` of `fixture-async.ts`. -/
def getSymLinkTargetType (fs : FS) (targetPath : FsPath) : Except Err Bool :=
  match checkIfPathExists fs targetPath with
  | .error e => .error e
  | .ok isDir => .ok isDir

/-- The awaited symlink flush loop of `FixtureAsync.make`. -/
def flushSymlinks : MState → SymTable → MState × Option Err
  | st, [] => (st, none)
  | st, (symlinkPath, target) :: rest =>
    match checkIfPathIsAllowed st.allowed symlinkPath with
    | .error e => (st, some e)
    | .ok _ =>
      match checkIfPathIsAllowed st.allowed target with
      | .error e => (st, some e)
      | .ok _ =>
        match getSymLinkTargetType st.fs target with
        | .error e => (st, some e)
        | .ok junction =>
          flushSymlinks
            { st with
                fs := { st.fs with
                          symlinks := st.fs.symlinks ++ [(symlinkPath, target, junction)] },
                trace := st.trace ++
                  [TraceOp.statOp target, TraceOp.symlinkOp target symlinkPath junction] }
            rest

/-- The awaited entry loop of `FixtureAsync.make`'s `dir` branch. -/
def makeEntries
    (step : MState → FsPath → RawValue → Option SymTable → Option (MState × SymTable × Option Err))
    (base : FsPath) :
    MState → SymTable → List (String × RawValue) → Option (MState × SymTable × Option Err)
  | st, sy, [] => some (st, sy, none)
  | st, sy, (name, v) :: rest =>
    match step st (joinSegs base name) v (some sy) with
    | none => none
    | some (st', sy', some e) => some (st', sy', some e)
    | some (st', sy', none) => makeEntries step base st' sy' rest

/-- The kind dispatch of `FixtureAsync.make`. -/
def makeDispatch (h : Heap)
    (step : MState → FsPath → RawValue → Option SymTable → Option (MState × SymTable × Option Err))
    (isRoot : Bool) (st : MState) (normalizedPath : FsPath)
    (ftype : FixtureType) (fcontent : RawValue) (symlinks : SymTable) :
    Option (MState × SymTable × Option Err) :=
  match ftype with
  | .dir =>
    match checkIfPathIsAllowed st.allowed normalizedPath with
    | .error e => some (st, symlinks, some e)
    | .ok _ =>
      let st := { st with
                    fs := mkdirpFs st.fs normalizedPath,
                    trace := st.trace ++ [TraceOp.mkdirOp normalizedPath] }
      let st := { st with
                    allowed := insertPath (if isRoot then [] else st.allowed) normalizedPath }
      match jsEntries h fcontent with
      | .error e => some (st, symlinks, some e)
      | .ok entries => makeEntries step normalizedPath st symlinks entries
  | .file =>
    match checkIfPathIsAllowed st.allowed normalizedPath with
    | .error e => some (st, symlinks, some e)
    | .ok _ =>
      some ({ st with
                fs := { st.fs with files := upsertFile st.fs.files normalizedPath fcontent },
                trace := st.trace ++ [TraceOp.writeOp normalizedPath] },
            symlinks, none)
  | .link =>
    match fcontent with
    | .str s =>
      let normalizedPathDirName := dirnameSegs normalizedPath
      let existingPath := resolvePath normalizedPathDirName s
      match checkIfPathIsAllowed st.allowed existingPath with
      | .error e => some (st, symlinks, some e)
      | .ok _ =>
        match checkIfPathIsAllowed st.allowed normalizedPath with
        | .error e => some (st, symlinks, some e)
        | .ok _ =>
          if fileExistsAt st.fs existingPath then
            some ({ st with
                      fs := { st.fs with
                                hardlinks := st.fs.hardlinks ++ [(normalizedPath, existingPath)] },
                      trace := st.trace ++ [TraceOp.linkOp existingPath normalizedPath] },
                  symlinks, none)
          else some (st, symlinks, some .fsError)
    | _ => some (st, symlinks, some .fsError)
  | .symlink =>
    match fcontent with
    | .str s =>
      let targetPath := resolvePath (dirnameSegs normalizedPath) s
      some (st, upsertTable symlinks normalizedPath targetPath, none)
    | _ => some (st, symlinks, some .fsError)

/-- `FixtureAsync.make(pathIn, content, symlinks = null)` of
`fixture-async.ts`. -/
def make (env : Env) (h : Heap) :
    Nat → MState → FsPath → RawValue → Option SymTable →
    Option (MState × SymTable × Option Err)
  | 0, _, _, _, _ => none
  | fuel + 1, st, pathIn, content, symlinksIn =>
    let normalizedPath := normSegs pathIn
    match rawToFixture h (fuel + 1) content with
    | none => none
    | some (.error e) => some (st, symlinksIn.getD [], some e)
    | some (.ok (ftype, fcontent)) =>
      let isRoot := symlinksIn.isNone
      let symlinks := symlinksIn.getD []
      let st := if isRoot then { st with allowed := resetAllowedPaths env } else st
      match makeDispatch h (fun st p v sy => make env h fuel st p v sy)
              isRoot st normalizedPath ftype fcontent symlinks with
      | none => none
      | some (st', sy', some e) => some (st', sy', some e)
      | some (st', sy', none) =>
        if isRoot then
          let flushed := flushSymlinks st' sy'
          some (flushed.1, sy', flushed.2)
        else some (st', sy', none)

end FixtureAsync

/- ### `temporary-fixture.ts` / `temporary-fixture-async.ts`: `createTestDir`

The wrapper allocates a fresh temp root, materializes into it, then
registers the test-lifecycle cleanup hooks.  Collaborators are abstracted
at their interface: `hooksAvailable` is whether `onTestFailed` /
`onTestFinished` can be called in the current execution context (they
throw synchronously when no test is running), and `makeResult` is the
outcome of the `Fixture.make` call into the fresh root. -/

/-- `onTestFailed`/`onTestFinished` registration: throws when hooks are
unavailable in the execution context. -/
def registerHooks (hooksAvailable : Bool) : Except Unit Unit :=
  if hooksAvailable then .ok () else .error ()

/-- Outcome of `createTestDir`: the created directory path, or the
wrapping "[TestFixtures.createTestDir()] Failed to create test
directory" error. -/
inductive CreateTestDirResult where
  | ok (dir : FsPath)
  | wrappedError
deriving DecidableEq, Repr

/-- `TestFixtures.createTestDir` (synchronous, `temporary-fixture.ts`):
hook registration is wrapped in an inner try/catch, so unavailable hooks
do not fail the call — cleanup becomes manual. -/
def TestFixtures.createTestDir (hooksAvailable : Bool) (makeResult : Option Err)
    (testDir : FsPath) : CreateTestDirResult :=
  match makeResult with
  | some _ => .wrappedError
  | none =>
    match registerHooks hooksAvailable with
    | _ => .ok testDir

/-- `TestFixturesAsync.createTestDir` (asynchronous,
`temporary-fixture-async.ts`): hook registration is *not* wrapped in an
inner try/catch; a throwing `onTestFailed` is caught by the outer
try/catch and rethrown as the wrapping error. -/
def TestFixturesAsync.createTestDir (hooksAvailable : Bool) (makeResult : Option Err)
    (testDir : FsPath) : CreateTestDirResult :=
  match makeResult with
  | some _ => .wrappedError
  | none =>
    match registerHooks hooksAvailable with
    | .error _ => .wrappedError
    | .ok _ => .ok testDir

/- ### Predicates used by the theorems -/

/-- A value admissible as a directory entry leaf: string, byte sequence,
nested mapping, or already-tagged node.  (`null` is deliberately *not*
here: `rawToType` classifies it as a mapping.) -/
def validLeaf : RawValue → Bool
  | .str _ => true
  | .bytes _ => true
  | .obj _ => true
  | .fixture _ _ => true
  | _ => false

/-- All entries of a mapping hold admissible leaves whose object
references point into a heap of size `n`. -/
def goodEntriesB (n : Nat) (l : List (String × RawValue)) : Bool :=
  l.all (fun kv =>
    validLeaf kv.2 &&
    (match kv.2 with
     | .obj m => decide (m < n)
     | _ => true))

/-- Every mapping of the heap has admissible, in-bounds entries. -/
def goodHeap (h : Heap) : Bool :=
  h.all (goodEntriesB h.length)

/-- `PathTo h entries p m`: starting from the entry list `entries`,
following the sequence `p` of entry positions through *raw* (untagged)
nested mappings reaches the mapping `m`.  This is the traversal the
`validateDirContents` recursion performs: entries wrapped in a `Fixture`
node are not followed. -/
inductive PathTo (h : Heap) : List (String × RawValue) → List Nat → ObjId → Prop where
  | here : ∀ {entries : List (String × RawValue)} {i : Nat} {name : String} {m : ObjId},
      entries.get? i = some (name, .obj m) → PathTo h entries [i] m
  | step : ∀ {entries : List (String × RawValue)} {i : Nat} {name : String} {m' m : ObjId}
      {p : List Nat},
      entries.get? i = some (name, .obj m') →
      PathTo h (heapEntries h m') p m → PathTo h entries (i :: p) m

/-- The raw-mapping traversal from mapping `d` re-encounters a mapping:
either it leads back to `d` itself, or it reaches some mapping by two
distinct entry paths (a true cycle, or the same mapping object shared at
two tree positions). -/
def RevisitsMapping (h : Heap) (d : ObjId) : Prop :=
  (∃ p, PathTo h (heapEntries h d) p d) ∨
  (∃ m p₁ p₂, p₁ ≠ p₂ ∧
    PathTo h (heapEntries h d) p₁ m ∧ PathTo h (heapEntries h d) p₂ m)

/-- A directory-entry value contains a reference to mapping `m`, looking
through `Fixture` wrappers (a tagged node's `content` is part of the
value). -/
inductive EntryRef : RawValue → ObjId → Prop where
  | obj : ∀ {m : ObjId}, EntryRef (.obj m) m
  | through : ∀ {t : FixtureType} {c : RawValue} {m : ObjId},
      EntryRef c m → EntryRef (.fixture t c) m

/-- Full entry-traversal reachability between mappings, including
through the content of already-tagged `Fixture` nodes. -/
inductive ReachAll (h : Heap) : ObjId → ObjId → Prop where
  | direct : ∀ {d : ObjId} {name : String} {v : RawValue} {m : ObjId},
      (name, v) ∈ heapEntries h d → EntryRef v m → ReachAll h d m
  | trans : ∀ {d m' m : ObjId}, ReachAll h d m' → ReachAll h m' m → ReachAll h d m

/-- Whether a constructor outcome is a `CycleDetectedError`. -/
def isCycleErr : Option (Except Err RawValue) → Bool
  | some (.error (.cycleDetected _)) => true
  | _ => false

/-- Every member of the allowed set is the root `R` or a descendant of it. -/
def AllowedUnder (R : FsPath) (st : MState) : Prop :=
  ∀ a ∈ st.allowed, isUnder R a = true

/-- Every (nonempty) ancestor of `R`, and `R` itself, exists as a directory. -/
def AncestorsIn (R : FsPath) (fs : FS) : Prop :=
  ∀ q ∈ prefixesOf R, q ∈ fs.dirs

/-- `p` is a strict descendant of `R`. -/
def StrictlyUnder (R p : FsPath) : Prop :=
  isUnder R p = true ∧ p ≠ R

/-- Relation between the states before and after a (non-root) step of
the materializer, viewed from root `R`: the allowed set stays under `R`,
anything newly created is strictly inside `R`, no symlink is created,
and directories persist. -/
def GrowsWithin (R : FsPath) (st st' : MState) : Prop :=
  (∀ a ∈ st'.allowed, isUnder R a = true) ∧
  (∀ d ∈ st'.fs.dirs, d ∈ st.fs.dirs ∨ StrictlyUnder R d) ∧
  (∀ f ∈ st'.fs.files, f ∈ st.fs.files ∨ StrictlyUnder R f.1) ∧
  (∀ l ∈ st'.fs.hardlinks, l ∈ st.fs.hardlinks ∨ (StrictlyUnder R l.1 ∧ StrictlyUnder R l.2)) ∧
  st'.fs.symlinks = st.fs.symlinks ∧
  (∀ d ∈ st.fs.dirs, d ∈ st'.fs.dirs)

/- Concrete inputs shared by the evaluation theorems. -/

/-- A concrete environment: `cwd = /home`, `tmpdir = /tmp`. -/
def env0 : Env := { cwd := ["home"], tmp := ["tmp"] }

/-- The empty starting state. -/
def st0 : MState :=
  { fs := { dirs := [], files := [], hardlinks := [], symlinks := [] },
    allowed := [], trace := [] }

/-- `{ link: new Fixture('symlink', 'sibling'), sibling: { 'f.txt': 'x' } }`
(symlink entry first). -/
def heapLinkFirst : Heap :=
  [[("link", .fixture .symlink (.str "sibling")), ("sibling", .obj 1)],
   [("f.txt", .str "x")]]

/-- The same directory with the sibling entry first. -/
def heapSiblingFirst : Heap :=
  [[("sibling", .obj 1), ("link", .fixture .symlink (.str "sibling"))],
   [("f.txt", .str "x")]]

/-- `D = {}; D.a = new Fixture('dir', D)`: a mapping whose only entry is
a tagged directory node whose content is `D` itself. -/
def heapSelfViaFixture : Heap := [[("a", .fixture .dir (.obj 0))]]

/-- `d = { a: { d: d } }` — the raw cyclic mapping of the repository's
own test suite. -/
def heapRawCycle : Heap := [[("a", .obj 1)], [("d", .obj 0)]]

/-- `{ n: null }`. -/
def heapNullLeaf : Heap := [[("n", .nullv)]]

/-- The externally observable part of a `Fixture.make` outcome: the
filesystem, the operation trace, the pending-symlink table and the
error.  (The process-wide allowed set left behind is scratch state; a
top-level call never reads it, as C2 proves.) -/
def makeObservables (r : Option (MState × SymTable × Option Err)) :
    Option ((FS × List TraceOp) × SymTable × Option Err) :=
  r.map (fun x => ((x.1.fs, x.1.trace), x.2))

/-- What a successful recursive `validateDirContents` call guarantees:
the `seen` set only grows (by prefixing), every mapping reachable by raw
entry paths was unseen before and is seen after, and reachable mappings
have unique paths. -/
def IntoSpec (h : Heap) (step : ObjId → List ObjId → Option (Except Err (List ObjId))) : Prop :=
  ∀ m seen r, step m seen = some (.ok r) →
    (∃ pre, r = pre ++ seen) ∧
    (∀ p mm, PathTo h (heapEntries h m) p mm → ¬ mm ∈ seen ∧ mm ∈ r) ∧
    (∀ mm p₁ p₂, PathTo h (heapEntries h m) p₁ mm → PathTo h (heapEntries h m) p₂ mm →
      p₁ = p₂)

/-- Growing the seen set preserves well-formedness bookkeeping. -/
def IntoWf (h : Heap) (step : ObjId → List ObjId → Option (Except Err (List ObjId))) : Prop :=
  ∀ m seen r, step m seen = some (.ok r) →
    seen.Nodup → (∀ x ∈ seen, x < h.length) →
    r.Nodup ∧ ∀ x ∈ r, x < h.length

/-- State with root `/r` created and allowed, for the C7 witness. -/
def stFlushW : MState :=
  { fs := { dirs := [["r"], ["r", "d"]], files := [], hardlinks := [], symlinks := [] },
    allowed := [["r"]], trace := [] }

/-- State inside root `/tmp/fix` for the C1 witness. -/
def stC1 : MState :=
  { fs := { dirs := [["tmp"], ["tmp", "fix"]], files := [], hardlinks := [], symlinks := [] },
    allowed := [["tmp", "fix"]], trace := [] }

/-- The final state of materializing `heapLinkFirst` under `/tmp/fix`
(used by the C10 witness). -/
def outC10 : MState × SymTable × Option Err :=
  ({ fs := { dirs := [["tmp"], ["tmp", "fix"], ["tmp", "fix", "sibling"]],
             files := [(["tmp", "fix", "sibling", "f.txt"], RawValue.str "x")],
             hardlinks := [],
             symlinks := [(["tmp", "fix", "link"], ["tmp", "fix", "sibling"], true)] },
     allowed := [["tmp", "fix"], ["tmp", "fix", "sibling"]],
     trace := [TraceOp.mkdirOp ["tmp", "fix"],
               TraceOp.mkdirOp ["tmp", "fix", "sibling"],
               TraceOp.writeOp ["tmp", "fix", "sibling", "f.txt"],
               TraceOp.statOp ["tmp", "fix", "sibling"],
               TraceOp.symlinkOp ["tmp", "fix", "sibling"] ["tmp", "fix", "link"] true] },
   [(["tmp", "fix", "link"], ["tmp", "fix", "sibling"])], none)

/-- Entries whose leaves are admissible and whose mapping references are
in bounds. -/
def entGood (n : Nat) (entries : List (String × RawValue)) : Prop :=
  ∀ kv ∈ entries, validLeaf kv.2 = true ∧ ∀ m, kv.2 = RawValue.obj m → m < n

/- ### Helper lemmas: path containment -/

theorem isUnder_iff {r p : FsPath} : isUnder r p = true ↔ r = p.take r.length := by
  simp [isUnder]

theorem length_le_of_isUnder {r p : FsPath} (hu : isUnder r p = true) :
    r.length ≤ p.length := by
  rw [isUnder_iff] at hu
  have h := congrArg List.length hu
  simp [List.length_take] at h
  omega

theorem isUnder_of_isUnder_dirname {r p : FsPath} (hu : isUnder r (dirnameSegs p) = true) :
    isUnder r p = true := by
  have hlen := length_le_of_isUnder hu
  rw [isUnder_iff] at hu ⊢
  rw [dirnameSegs, List.dropLast_eq_take, List.take_take] at hu
  rw [dirnameSegs, List.dropLast_eq_take, List.length_take] at hlen
  rw [Nat.min_eq_left (le_trans hlen (Nat.min_le_left _ _))] at hu
  exact hu

theorem isUnder_nil_iff {r : FsPath} : isUnder r [] = true ↔ r = [] := by
  simp [isUnder]

/-- If every member of `allowed` is under `R ≠ []` and `p`'s parent is a
member, then `p` is strictly under `R`. -/
theorem strictlyUnder_of_dirname_mem {R : FsPath} (hR : R ≠ []) {allowed : List FsPath}
    (hA : ∀ a ∈ allowed, isUnder R a = true) {p : FsPath}
    (hp : dirnameSegs p ∈ allowed) : StrictlyUnder R p := by
  have hu' := hA _ hp
  have hpne : p ≠ [] := by
    intro hnil
    subst hnil
    simp [dirnameSegs] at hu'
    exact hR (isUnder_nil_iff.mp hu')
  refine ⟨isUnder_of_isUnder_dirname hu', ?_⟩
  intro hEq
  have h1 := length_le_of_isUnder hu'
  rw [dirnameSegs, List.length_dropLast] at h1
  have h2 : 0 < p.length := List.length_pos.mpr hpne
  subst hEq
  omega

/-- Contrapositive form: a path not under `R` has its parent outside any
allowed set whose members are all under `R`. -/
theorem dirname_not_mem_of_escape {R : FsPath} (hR : R ≠ []) {allowed : List FsPath}
    (hA : ∀ a ∈ allowed, isUnder R a = true) {t : FsPath}
    (ht : isUnder R t = false) : dirnameSegs t ∉ allowed := by
  intro hmem
  have h := (strictlyUnder_of_dirname_mem hR hA hmem).1
  rw [h] at ht
  cases ht

theorem isUnder_take {R p : FsPath} (hu : isUnder R p = true) {i : Nat}
    (hi : R.length ≤ i) : isUnder R (p.take i) = true := by
  rw [isUnder_iff] at hu ⊢
  rw [List.take_take, Nat.min_eq_left hi]
  exact hu

theorem mem_prefixesOf {p q : FsPath} :
    q ∈ prefixesOf p ↔ ∃ i, 1 ≤ i ∧ i ≤ p.length ∧ q = p.take i := by
  simp only [prefixesOf, List.mem_map, List.mem_range]
  constructor
  · rintro ⟨i, hi, rfl⟩
    exact ⟨i + 1, by omega, by omega, rfl⟩
  · rintro ⟨i, h1, h2, rfl⟩
    exact ⟨i - 1, by omega, by rw [Nat.sub_add_cancel h1]⟩

/-- A short prefix of a path under `R` is a prefix of `R` itself. -/
theorem take_mem_prefixesOf {R p : FsPath} (hu : isUnder R p = true) {i : Nat}
    (h1 : 1 ≤ i) (hi : i ≤ R.length) :
    p.take i ∈ prefixesOf R := by
  rw [mem_prefixesOf]
  refine ⟨i, h1, hi, ?_⟩
  rw [isUnder_iff] at hu
  rw [hu, List.take_take, Nat.min_eq_left hi]

theorem mem_mkdirpFs {fs : FS} {p d : FsPath} :
    d ∈ (mkdirpFs fs p).dirs ↔ d ∈ fs.dirs ∨ (d ∈ prefixesOf p ∧ ¬ d ∈ fs.dirs) := by
  simp [mkdirpFs, List.mem_filter]

theorem mem_insertPath {l : List FsPath} {p x : FsPath} :
    x ∈ insertPath l p ↔ x ∈ l ∨ x = p := by
  unfold insertPath
  by_cases hp : p ∈ l <;> simp [hp]
  intro hx
  rw [hx]
  exact hp

theorem mem_upsertFile {l : List (FsPath × RawValue)} {k : FsPath} {v : RawValue}
    {x : FsPath × RawValue} (hx : x ∈ upsertFile l k v) : x ∈ l ∨ x = (k, v) := by
  induction l with
  | nil => simpa [upsertFile] using hx
  | cons hd tl ih =>
    obtain ⟨k', v'⟩ := hd
    unfold upsertFile at hx
    by_cases hk : k' = k
    · simp only [if_pos hk] at hx
      rcases List.mem_cons.mp hx with h | h
      · right; rw [h, hk]
      · left; exact List.mem_cons_of_mem _ h
    · simp only [if_neg hk] at hx
      rcases List.mem_cons.mp hx with h | h
      · left; rw [h]; exact List.mem_cons_self _ _
      · rcases ih h with h' | h'
        · left; exact List.mem_cons_of_mem _ h'
        · right; exact h'

theorem growsWithin_refl {R : FsPath} {st : MState} (hA : AllowedUnder R st) :
    GrowsWithin R st st :=
  ⟨hA, fun _ hd => Or.inl hd, fun _ hf => Or.inl hf, fun _ hl => Or.inl hl, rfl,
   fun _ hd => hd⟩

theorem growsWithin_trans {R : FsPath} {st st' st'' : MState}
    (h1 : GrowsWithin R st st') (h2 : GrowsWithin R st' st'') :
    GrowsWithin R st st'' := by
  obtain ⟨a1, d1, f1, l1, s1, m1⟩ := h1
  obtain ⟨a2, d2, f2, l2, s2, m2⟩ := h2
  refine ⟨a2, ?_, ?_, ?_, s2.trans s1, fun d hd => m2 d (m1 d hd)⟩
  · intro d hd
    rcases d2 d hd with h | h
    · exact d1 d h
    · exact Or.inr h
  · intro f hf
    rcases f2 f hf with h | h
    · exact f1 f h
    · exact Or.inr h
  · intro l hl
    rcases l2 l hl with h | h
    · exact l1 l h
    · exact Or.inr h

/- ### Supporting lemmas: validation -/

theorem validateEntries_nil (step : ObjId → List ObjId → Option (Except Err (List ObjId)))
    (seen : List ObjId) : validateEntries step [] seen = some (.ok seen) := rfl

theorem validateEntries_cons (step : ObjId → List ObjId → Option (Except Err (List ObjId)))
    (name : String) (v : RawValue) (rest : List (String × RawValue)) (seen : List ObjId) :
    validateEntries step ((name, v) :: rest) seen =
      (match rawToType v with
       | .error e => some (.error e)
       | .ok _ =>
         match v with
         | .obj m =>
           if m ∈ seen then some (.error (.cycleDetected name))
           else
             match step m (m :: seen) with
             | none => none
             | some (.error e) => some (.error e)
             | some (.ok seen') => validateEntries step rest seen'
         | .nullv => some (.error .entriesOfNull)
         | _ => validateEntries step rest seen) := rfl

theorem validateInto_succ (h : Heap) (fuel : Nat) (m : ObjId) (seen : List ObjId) :
    validateInto h (fuel + 1) m seen =
      validateEntries (validateInto h fuel) (heapEntries h m) seen := rfl

/-- Constructing a directory `Fixture` over a plain mapping runs exactly
the `validateDirContents` entry loop with `seen = {content}`. -/
theorem fixtureNew_dir_obj (h : Heap) (fuel : Nat) (d : ObjId) :
    fixtureNew h fuel .dir (.obj d) =
      (match validateEntries (validateInto h fuel) (heapEntries h d) [d] with
       | none => none
       | some (.error e) => some (.error e)
       | some (.ok _) => some (.ok (.fixture .dir (.obj d)))) := by
  cases hval : validateEntries (validateInto h fuel) (heapEntries h d) [d] with
  | none =>
    simp only [fixtureNew, assertValidContent, validateDirContents, jsEntries,
      jsTypeofIsObject, if_true]
    rw [hval]
  | some r =>
    cases r with
    | error e =>
      simp only [fixtureNew, assertValidContent, validateDirContents, jsEntries,
        jsTypeofIsObject, if_true]
      rw [hval]
    | ok s =>
      simp only [fixtureNew, assertValidContent, validateDirContents, jsEntries,
        jsTypeofIsObject, if_true]
      rw [hval]

/-- If the `validateDirContents` entry loop completes without throwing,
every entry's value classified successfully under `rawToType`. -/
theorem validateEntries_ok_leaves
    (step : ObjId → List ObjId → Option (Except Err (List ObjId))) :
    ∀ (entries : List (String × RawValue)) (seen seen' : List ObjId),
      validateEntries step entries seen = some (.ok seen') →
      ∀ kv ∈ entries, ∃ t, rawToType kv.2 = .ok t := by
  intro entries
  induction entries with
  | nil => intro seen seen' _ kv hkv; simp at hkv
  | cons hd tl ih =>
    intro seen seen' hval kv hkv
    obtain ⟨name, v⟩ := hd
    rw [validateEntries_cons] at hval
    cases hrt : rawToType v with
    | error e => rw [hrt] at hval; simp at hval
    | ok t =>
      rw [hrt] at hval
      simp only [] at hval
      rcases List.mem_cons.mp hkv with rfl | hmem
      · exact ⟨t, hrt⟩
      · cases v with
        | obj m =>
          by_cases hm : m ∈ seen
          · simp [hm] at hval
          · simp only [hm, if_false, if_neg hm] at hval
            cases hstep : step m (m :: seen) with
            | none => rw [hstep] at hval; simp at hval
            | some r =>
              rw [hstep] at hval
              cases r with
              | error e => simp at hval
              | ok seen'' => exact ih _ _ hval kv hmem
        | nullv => simp at hval
        | str s => exact ih _ _ hval kv hmem
        | bytes bs => exact ih _ _ hval kv hmem
        | num n => cases hrt
        | boolv b => cases hrt
        | undef => cases hrt
        | fixture ft c => exact ih _ _ hval kv hmem

/- ### Claim theorems -/

/-- **C3.** The path-containment predicate is an exact set-membership
test on the immediate parent: a write or link at `p` is permitted by
`checkIfPathIsAllowed` iff `dirnameSegs p` is an element of the
Allowed-Paths set, and otherwise the call throws `IllegalPathError`
naming that parent — in particular a path whose parent is merely a
descendant of an allowed directory, or merely has one as a prefix, is
rejected (the witness instantiates exactly that situation). -/
theorem checkIfPathIsAllowed_exact_membership (allowed : List FsPath) (p : FsPath) :
    (checkIfPathIsAllowed allowed p = .ok () ↔ dirnameSegs p ∈ allowed) ∧
    (dirnameSegs p ∉ allowed →
      checkIfPathIsAllowed allowed p = .error (.illegalPath (dirnameSegs p))) := by
  constructor
  · unfold checkIfPathIsAllowed
    by_cases hmem : dirnameSegs p ∈ allowed <;> simp [hmem]
  · intro hmem
    unfold checkIfPathIsAllowed
    simp [hmem]

/-- Witness for C3: the parent `/tmp/a` of `/tmp/a/b` is a strict
descendant of the only allowed directory `/tmp`, and the path is
rejected with `IllegalPathError` naming `/tmp/a`. -/
theorem checkIfPathIsAllowed_exact_membership_witness :
    checkIfPathIsAllowed [["tmp"]] ["tmp", "a", "b"] =
      .error (.illegalPath ["tmp", "a"]) :=
  (checkIfPathIsAllowed_exact_membership [["tmp"]] ["tmp", "a", "b"]).2 (by decide)

/-- **C5 counterexample.** The claim states that a raw `null` leaf fails
validation with `InvalidContentError` naming the value.  In fact
`typeof null === 'object'`, so `rawToType` classifies `null` as a
directory mapping, and constructing a directory over `{ n: null }` fails
with the `TypeError` that `Object.entries(null)` throws — a different
error kind than `rawToType`'s `InvalidContentError`. -/
theorem null_leaf_misclassified :
    rawToType .nullv = .ok .dir ∧
    fixtureNew heapNullLeaf 10 .dir (.obj 0) = some (.error .entriesOfNull) ∧
    Err.entriesOfNull ≠ Err.invalidContent :=
  ⟨rfl, by rfl, by decide⟩

/-- **C5 (amended).** Implicit coercion at every nesting level: a raw
string or byte sequence becomes `file`, a raw mapping becomes `dir`, a
tagged node keeps its kind; a raw number, boolean or `undefined` leaf is
invalid and, when encountered, fails construction with
`InvalidContentError`; but a raw `null` — contrary to the original claim
— is classified as a mapping (`typeof null === 'object'`), not rejected
with `InvalidContentError` (see the counterexample).  A mapping holding
an invalid-shaped leaf anywhere never validates successfully. -/
theorem invalid_leaf_rejection (h : Heap) (fuel : Nat) (d : ObjId)
    (nm : String) (v : RawValue) (rest : List (String × RawValue)) :
    (∀ s, rawToType (.str s) = .ok .file) ∧
    (∀ bs, rawToType (.bytes bs) = .ok .file) ∧
    (∀ i, rawToType (.obj i) = .ok .dir) ∧
    (∀ t c, rawToType (.fixture t c) = .ok t) ∧
    (∀ n, rawToType (.num n) = .error .invalidContent) ∧
    (∀ b, rawToType (.boolv b) = .error .invalidContent) ∧
    (rawToType .undef = .error .invalidContent) ∧
    (rawToType .nullv = .ok .dir) ∧
    (heapEntries h d = (nm, v) :: rest → rawToType v = .error .invalidContent →
      fixtureNew h fuel .dir (.obj d) = some (.error .invalidContent)) ∧
    ((nm, v) ∈ heapEntries h d → (∃ e, rawToType v = .error e) →
      ∀ w, fixtureNew h fuel .dir (.obj d) ≠ some (.ok w)) := by
  refine ⟨fun _ => rfl, fun _ => rfl, fun _ => rfl, fun _ _ => rfl, fun _ => rfl,
    fun _ => rfl, rfl, rfl, ?_, ?_⟩
  · intro hhead hbad
    rw [fixtureNew_dir_obj, hhead, validateEntries_cons, hbad]
  · intro hmem hex w hok
    obtain ⟨e, hbad⟩ := hex
    rw [fixtureNew_dir_obj] at hok
    cases hval : validateEntries (validateInto h fuel) (heapEntries h d) [d] with
    | none => rw [hval] at hok; cases hok
    | some r =>
      rw [hval] at hok
      cases r with
      | error e' => simp at hok
      | ok seen' =>
        obtain ⟨t, ht⟩ := validateEntries_ok_leaves _ _ _ _ hval (nm, v) hmem
        rw [ht] at hbad
        cases hbad

/-- Witness for C5 (amended): `{ k: 5 }` fails with
`InvalidContentError`. -/
theorem invalid_leaf_rejection_witness :
    fixtureNew [[("k", RawValue.num 5)]] 3 .dir (.obj 0) =
      some (.error .invalidContent) :=
  ((invalid_leaf_rejection [[("k", RawValue.num 5)]] 3 0 "k" (RawValue.num 5)
      []).2.2.2.2.2.2.2.2.1) rfl rfl

/-- **C8 (code bug).** With the lifecycle hooks unavailable
(`onTestFailed`/`onTestFinished` throw outside a running test) and a
successful materialization, the synchronous `TestFixtures.createTestDir`
still returns the created directory (its hook registration is wrapped in
an inner try/catch), but the asynchronous
`TestFixturesAsync.createTestDir` — whose source lacks that inner
try/catch — catches the hook throw in its outer handler and fails with
the wrapping error, contradicting the claim that both variants succeed. -/
theorem createTestDir_without_hooks (d : FsPath) :
    TestFixtures.createTestDir false none d = .ok d ∧
    TestFixturesAsync.createTestDir false none d = .wrappedError :=
  ⟨rfl, rfl⟩

/-- **C4 counterexample.** Build `D = {}; F = new Fixture('dir', D);
D.a = F` (the constructor call validates `D` while still empty, and the
later assignment creates the back-reference).  Then `D` contains, at
nesting depth one reachable through entry traversal, a reference back to
`D` itself — through the tagged node's `content` — yet
`new Fixture('dir', D)` succeeds instead of failing with
`CycleDetectedError`: `validateDirContents` skips entries that are
already `Fixture` instances. -/
theorem fixture_wrapped_selfref_not_detected :
    ReachAll heapSelfViaFixture 0 0 ∧
    fixtureNew heapSelfViaFixture 10 .dir (.obj 0) =
      some (.ok (.fixture .dir (.obj 0))) :=
  ⟨@ReachAll.direct heapSelfViaFixture 0 "a" (.fixture .dir (.obj 0)) 0 (by decide)
      (EntryRef.through EntryRef.obj),
   by rfl⟩

/- ### Supporting lemmas: unfolding `Fixture.make` -/

theorem make_zero (env : Env) (h : Heap) (st : MState) (p : FsPath) (v : RawValue)
    (sy : Option SymTable) : Fixture.make env h 0 st p v sy = none := rfl

theorem make_succ (env : Env) (h : Heap) (fuel : Nat) (st : MState) (p : FsPath)
    (v : RawValue) (sy : Option SymTable) :
    Fixture.make env h (fuel + 1) st p v sy =
      (match rawToFixture h (fuel + 1) v with
       | none => none
       | some (.error e) => some (st, sy.getD [], some e)
       | some (.ok (ftype, fcontent)) =>
         let isRoot := sy.isNone
         let symlinks := sy.getD []
         let st := if isRoot then { st with allowed := resetAllowedPaths env } else st
         match makeDispatch h (fun st p v sy => Fixture.make env h fuel st p v sy)
                 isRoot st (normSegs p) ftype fcontent symlinks with
         | none => none
         | some (st', sy', some e) => some (st', sy', some e)
         | some (st', sy', none) =>
           if isRoot then
             let flushed := flushSymlinks st' sy'
             some (flushed.1, sy', flushed.2)
           else some (st', sy', none)) := rfl

theorem postlude_id (x : Option (MState × SymTable × Option Err)) :
    (match x with
     | none => none
     | some (st', sy', some e) => some (st', sy', some e)
     | some (st', sy', none) => some (st', sy', none)) = x := by
  rcases x with _ | ⟨st', sy', _ | e⟩ <;> rfl

/-- A nested (non-root) `Fixture.make` call on an already-tagged node is
exactly the kind dispatch: no reset, no flush, no re-validation. -/
theorem make_succ_fixture_table (env : Env) (h : Heap) (fuel : Nat) (st : MState)
    (p : FsPath) (t : FixtureType) (c : RawValue) (tbl : SymTable) :
    Fixture.make env h (fuel + 1) st p (.fixture t c) (some tbl) =
      makeDispatch h (fun st p v sy => Fixture.make env h fuel st p v sy)
        false st (normSegs p) t c tbl := by
  rw [make_succ]
  exact postlude_id _

/-- A top-level `Fixture.make` call on an already-tagged node: the
allowed set is reset, the dispatch runs, and on success the pending
symlinks are flushed. -/
theorem make_succ_fixture_root (env : Env) (h : Heap) (fuel : Nat) (st : MState)
    (p : FsPath) (t : FixtureType) (c : RawValue) :
    Fixture.make env h (fuel + 1) st p (.fixture t c) none =
      (match makeDispatch h (fun st p v sy => Fixture.make env h fuel st p v sy)
               true { st with allowed := resetAllowedPaths env } (normSegs p) t c [] with
       | none => none
       | some (st', sy', some e) => some (st', sy', some e)
       | some (st', sy', none) =>
         some ((flushSymlinks st' sy').1, sy', (flushSymlinks st' sy').2)) := rfl

theorem make_succ_rawok_table (env : Env) (h : Heap) (fuel : Nat) (st : MState)
    (p : FsPath) (v : RawValue) (tbl : SymTable) (ftype : FixtureType) (fcontent : RawValue)
    (hraw : rawToFixture h (fuel + 1) v = some (.ok (ftype, fcontent))) :
    Fixture.make env h (fuel + 1) st p v (some tbl) =
      makeDispatch h (fun st p v sy => Fixture.make env h fuel st p v sy)
        false st (normSegs p) ftype fcontent tbl := by
  rw [make_succ, hraw]
  exact postlude_id _

theorem make_succ_rawok_root (env : Env) (h : Heap) (fuel : Nat) (st : MState)
    (p : FsPath) (v : RawValue) (ftype : FixtureType) (fcontent : RawValue)
    (hraw : rawToFixture h (fuel + 1) v = some (.ok (ftype, fcontent))) :
    Fixture.make env h (fuel + 1) st p v none =
      (match makeDispatch h (fun st p v sy => Fixture.make env h fuel st p v sy)
               true { st with allowed := resetAllowedPaths env } (normSegs p) ftype fcontent [] with
       | none => none
       | some (st', sy', some e) => some (st', sy', some e)
       | some (st', sy', none) =>
         some ((flushSymlinks st' sy').1, sy', (flushSymlinks st' sy').2)) := by
  rw [make_succ, hraw]
  rfl

theorem make_succ_rawerr (env : Env) (h : Heap) (fuel : Nat) (st : MState)
    (p : FsPath) (v : RawValue) (sy : Option SymTable) (e : Err)
    (hraw : rawToFixture h (fuel + 1) v = some (.error e)) :
    Fixture.make env h (fuel + 1) st p v sy = some (st, sy.getD [], some e) := by
  rw [make_succ, hraw]

theorem make_succ_rawnone (env : Env) (h : Heap) (fuel : Nat) (st : MState)
    (p : FsPath) (v : RawValue) (sy : Option SymTable)
    (hraw : rawToFixture h (fuel + 1) v = none) :
    Fixture.make env h (fuel + 1) st p v sy = none := by
  rw [make_succ, hraw]

theorem flushSymlinks_nil (st : MState) : flushSymlinks st [] = (st, none) := rfl

theorem flushSymlinks_cons (st : MState) (p t : FsPath) (rest : SymTable) :
    flushSymlinks st ((p, t) :: rest) =
      (match checkIfPathIsAllowed st.allowed p with
       | .error e => (st, some e)
       | .ok _ =>
         match checkIfPathIsAllowed st.allowed t with
         | .error e => (st, some e)
         | .ok _ =>
           match getSymLinkTargetType st.fs t with
           | .error e => (st, some e)
           | .ok junction =>
             flushSymlinks
               { st with
                   fs := { st.fs with
                             symlinks := st.fs.symlinks ++ [(p, t, junction)] },
                   trace := st.trace ++
                     [TraceOp.statOp t, TraceOp.symlinkOp t p junction] }
               rest) := rfl

/-- **C6.** Symlink creation is deferred: a symlink node's `Fixture.make`
step only records `normalizedPath → resolvedTarget` in the pending
table and returns the state untouched (no filesystem operation, no trace
entry); consequently the directory
`{ link: symlink('sibling'), sibling: { 'f.txt': 'x' } }` materializes
successfully in either iteration order, producing identical results,
with the symlink present in the final filesystem. -/
theorem symlink_creation_deferred (env : Env) (h : Heap) (fuel : Nat) (st : MState)
    (p : FsPath) (s : String) (tbl : SymTable) :
    (Fixture.make env h (fuel + 1) st p (.fixture .symlink (.str s)) (some tbl) =
      some (st,
            upsertTable tbl (normSegs p) (resolvePath (dirnameSegs (normSegs p)) s),
            none)) ∧
    (Fixture.make env0 heapLinkFirst 10 st0 ["tmp", "fix"] (.obj 0) none =
      Fixture.make env0 heapSiblingFirst 10 st0 ["tmp", "fix"] (.obj 0) none) ∧
    (∃ stf tblf,
      Fixture.make env0 heapLinkFirst 10 st0 ["tmp", "fix"] (.obj 0) none =
        some (stf, tblf, none) ∧
      (["tmp", "fix", "link"], ["tmp", "fix", "sibling"], true) ∈ stf.fs.symlinks) := by
  refine ⟨rfl, by decide, ?_⟩
  refine ⟨{ fs := { dirs := [["tmp"], ["tmp", "fix"], ["tmp", "fix", "sibling"]],
                    files := [(["tmp", "fix", "sibling", "f.txt"], RawValue.str "x")],
                    hardlinks := [],
                    symlinks := [(["tmp", "fix", "link"], ["tmp", "fix", "sibling"], true)] },
            allowed := [["tmp", "fix"], ["tmp", "fix", "sibling"]],
            trace := [TraceOp.mkdirOp ["tmp", "fix"],
                      TraceOp.mkdirOp ["tmp", "fix", "sibling"],
                      TraceOp.writeOp ["tmp", "fix", "sibling", "f.txt"],
                      TraceOp.statOp ["tmp", "fix", "sibling"],
                      TraceOp.symlinkOp ["tmp", "fix", "sibling"] ["tmp", "fix", "link"] true] },
          [(["tmp", "fix", "link"], ["tmp", "fix", "sibling"])], by decide, by decide⟩

/-- **C7.** At symlink flush time, for every pending
`(symlinkPath, target)` pair: the link path's containment is checked
first, then the target's, then the target's existence (a missing target
is the fatal subdirectory error that aborts the flush with no symlink
created — no silent fallback); only then is the symlink created, tagged
`'junction'` exactly when the target stats as a directory. -/
theorem flush_checks_existence_and_type (st : MState) (p t : FsPath) (rest : SymTable) :
    (dirnameSegs p ∉ st.allowed →
      flushSymlinks st ((p, t) :: rest) = (st, some (.illegalPath (dirnameSegs p)))) ∧
    (dirnameSegs p ∈ st.allowed → dirnameSegs t ∉ st.allowed →
      flushSymlinks st ((p, t) :: rest) = (st, some (.illegalPath (dirnameSegs t)))) ∧
    (dirnameSegs p ∈ st.allowed → dirnameSegs t ∈ st.allowed →
      statPath st.fs (st.fs.symlinks.length + 1) t = none →
      flushSymlinks st ((p, t) :: rest) = (st, some .missingTarget)) ∧
    (∀ isDir, dirnameSegs p ∈ st.allowed → dirnameSegs t ∈ st.allowed →
      statPath st.fs (st.fs.symlinks.length + 1) t = some isDir →
      flushSymlinks st ((p, t) :: rest) =
        flushSymlinks
          { st with
              fs := { st.fs with symlinks := st.fs.symlinks ++ [(p, t, isDir)] },
              trace := st.trace ++ [TraceOp.statOp t, TraceOp.symlinkOp t p isDir] }
          rest) := by
  refine ⟨?_, ?_, ?_, ?_⟩
  · intro hp
    rw [flushSymlinks_cons]
    simp [checkIfPathIsAllowed, hp]
  · intro hp ht
    rw [flushSymlinks_cons]
    simp [checkIfPathIsAllowed, hp, ht]
  · intro hp ht hstat
    rw [flushSymlinks_cons]
    simp [checkIfPathIsAllowed, hp, ht, getSymLinkTargetType, checkIfPathExists, hstat]
  · intro isDir hp ht hstat
    rw [flushSymlinks_cons]
    simp [checkIfPathIsAllowed, hp, ht, getSymLinkTargetType, checkIfPathExists, hstat]

/-- Witness for C7: all four flush behaviours at concrete inputs — an
unallowed link path, an unallowed target, a missing target (fatal, no
symlink created), and a directory target created with the junction tag. -/
theorem flush_checks_existence_and_type_witness :
    (flushSymlinks stFlushW [(["x", "l"], ["r", "d"])] =
      (stFlushW, some (.illegalPath ["x"]))) ∧
    (flushSymlinks stFlushW [(["r", "l"], ["x", "t"])] =
      (stFlushW, some (.illegalPath ["x"]))) ∧
    (flushSymlinks stFlushW [(["r", "l"], ["r", "miss"])] =
      (stFlushW, some .missingTarget)) ∧
    (flushSymlinks stFlushW [(["r", "l"], ["r", "d"])] =
      ({ stFlushW with
           fs := { stFlushW.fs with symlinks := [(["r", "l"], ["r", "d"], true)] },
           trace := [TraceOp.statOp ["r", "d"],
                     TraceOp.symlinkOp ["r", "d"] ["r", "l"] true] },
       none)) :=
  ⟨(flush_checks_existence_and_type stFlushW ["x", "l"] ["r", "d"] []).1 (by decide),
   (flush_checks_existence_and_type stFlushW ["r", "l"] ["x", "t"] []).2.1 (by decide)
     (by decide),
   (flush_checks_existence_and_type stFlushW ["r", "l"] ["r", "miss"] []).2.2.1 (by decide)
     (by decide) (by rfl),
   ((flush_checks_existence_and_type stFlushW ["r", "l"] ["r", "d"] []).2.2.2 true
     (by decide) (by decide) (by rfl)).trans rfl⟩

/-- **C2.** Every top-level `Fixture.make` call resets the Allowed-Paths
set before any path check, so its observable effects (filesystem,
operation trace, pending table, error) are independent of whatever the
set held when the call started — state leaked by a previous call cannot
enable any write; and when the top-level node is a directory, the set is
replaced immediately after that directory's creation by exactly the one
root path, while a nested directory only adds its path to the set. -/
theorem topLevel_reset_and_collapse
    (env : Env) (h : Heap) (fuel : Nat) (fs : FS) (tr : List TraceOp)
    (A A' : List FsPath) (p : FsPath) (m : ObjId) (v : RawValue) (tbl : SymTable) :
    (makeObservables (Fixture.make env h fuel ⟨fs, A, tr⟩ p v none) =
      makeObservables (Fixture.make env h fuel ⟨fs, A', tr⟩ p v none)) ∧
    (heapEntries h m = [] → dirnameSegs (normSegs p) ∈ resetAllowedPaths env →
      Fixture.make env h (fuel + 1) ⟨fs, A, tr⟩ p (.obj m) none =
        some (⟨mkdirpFs fs (normSegs p), [normSegs p],
               tr ++ [TraceOp.mkdirOp (normSegs p)]⟩, [], none)) ∧
    (heapEntries h m = [] → dirnameSegs (normSegs p) ∈ A →
      Fixture.make env h (fuel + 1) ⟨fs, A, tr⟩ p (.obj m) (some tbl) =
        some (⟨mkdirpFs fs (normSegs p), insertPath A (normSegs p),
               tr ++ [TraceOp.mkdirOp (normSegs p)]⟩, tbl, none)) := by
  have hraw : ∀ fuel', heapEntries h m = [] →
      rawToFixture h fuel' (.obj m) = some (.ok (.dir, .obj m)) := by
    intro fuel' hm
    simp [rawToFixture, rawToType, assertValidContent, validateDirContents, jsEntries,
      jsTypeofIsObject, hm, validateEntries_nil]
  refine ⟨?_, ?_, ?_⟩
  · cases fuel with
    | zero => rfl
    | succ n =>
      rw [make_succ, make_succ]
      cases hr : rawToFixture h (n + 1) v with
      | none => rfl
      | some r =>
        cases r with
        | error e => rfl
        | ok tc => rfl
  · intro hm hmem
    rw [make_succ_rawok_root env h fuel ⟨fs, A, tr⟩ p (.obj m) .dir (.obj m) (hraw _ hm)]
    simp only [makeDispatch, checkIfPathIsAllowed]
    rw [if_pos hmem]
    simp only [jsEntries, hm, makeEntries, insertPath, List.not_mem_nil, if_neg,
      List.nil_append, flushSymlinks_nil]
    rfl
  · intro hm hmem
    rw [make_succ_rawok_table env h fuel ⟨fs, A, tr⟩ p (.obj m) tbl .dir (.obj m) (hraw _ hm)]
    simp only [makeDispatch, checkIfPathIsAllowed]
    rw [if_pos hmem]
    simp only [jsEntries, hm, makeEntries]
    rfl

/-- Witness for C2: materializing `{}` at `/tmp/fix` top-level collapses
the allowed set to exactly `/tmp/fix`; nested below an allowed parent it
extends the set instead. -/
theorem topLevel_reset_and_collapse_witness :
    (Fixture.make env0 [[]] 4 ⟨st0.fs, [["leak"]], []⟩ ["tmp", "fix"] (.obj 0) none =
      some (⟨mkdirpFs st0.fs ["tmp", "fix"], [["tmp", "fix"]],
             [TraceOp.mkdirOp ["tmp", "fix"]]⟩, [], none)) ∧
    (Fixture.make env0 [[]] 4 ⟨st0.fs, [["tmp", "fix"]], []⟩ ["tmp", "fix", "sub"]
        (.obj 0) (some []) =
      some (⟨mkdirpFs st0.fs ["tmp", "fix", "sub"],
             [["tmp", "fix"], ["tmp", "fix", "sub"]],
             [TraceOp.mkdirOp ["tmp", "fix", "sub"]]⟩, [], none)) := by
  constructor
  · have := (topLevel_reset_and_collapse env0 [[]] 3 st0.fs [] [["leak"]] [["leak"]]
      ["tmp", "fix"] 0 (.obj 0) []).2.1 rfl (by decide)
    simpa using this
  · have := (topLevel_reset_and_collapse env0 [[]] 3 st0.fs [] [["tmp", "fix"]]
      [["tmp", "fix"]] ["tmp", "fix", "sub"] 0 (.obj 0) []).2.2 rfl (by decide)
    have h2 : insertPath [["tmp", "fix"]] (normSegs ["tmp", "fix", "sub"]) =
        [["tmp", "fix"], ["tmp", "fix", "sub"]] := by decide
    rw [h2] at this
    simpa using this

/- ### Supporting lemmas: escaping link targets -/

/-- Flushing any pending table that contains a pair whose target escapes
the root fails, and no symlink is ever created at that pair's link path
(the containment checks run before each symlink creation). -/
theorem flush_escape_aux (R : FsPath) (hR : R ≠ []) (t : FsPath)
    (hesc : isUnder R t = false) (q : FsPath) :
    ∀ (tbl : SymTable) (st : MState), AllowedUnder R st →
      (q, t) ∈ tbl → (∀ kv ∈ tbl, kv.1 = q → kv.2 = t) →
      (flushSymlinks st tbl).2.isSome = true ∧
      (∀ x ∈ (flushSymlinks st tbl).1.fs.symlinks, x ∈ st.fs.symlinks ∨ x.1 ≠ q) := by
  intro tbl
  induction tbl with
  | nil => intro st _ hmem _; simp at hmem
  | cons hd rest ih =>
    intro st hA hmem huniq
    obtain ⟨k, v⟩ := hd
    rw [flushSymlinks_cons]
    by_cases hk : k = q
    · have hv : v = t := huniq (k, v) (List.mem_cons_self _ _) hk
      cases hc1 : checkIfPathIsAllowed st.allowed k with
      | error e =>
        exact ⟨rfl, fun x hx => Or.inl hx⟩
      | ok u =>
        have hnm : dirnameSegs v ∉ st.allowed := by
          rw [hv]
          exact dirname_not_mem_of_escape hR hA hesc
        have hc2 : checkIfPathIsAllowed st.allowed v = .error (.illegalPath (dirnameSegs v)) := by
          unfold checkIfPathIsAllowed
          simp [hnm]
        rw [hc2]
        exact ⟨rfl, fun x hx => Or.inl hx⟩
    · have hmem' : (q, t) ∈ rest := by
        rcases List.mem_cons.mp hmem with heq | h
        · exact absurd (congrArg Prod.fst heq).symm hk
        · exact h
      have huniq' : ∀ kv ∈ rest, kv.1 = q → kv.2 = t := by
        intro kv hkv
        exact huniq kv (List.mem_cons_of_mem _ hkv)
      cases hc1 : checkIfPathIsAllowed st.allowed k with
      | error e => exact ⟨rfl, fun x hx => Or.inl hx⟩
      | ok u =>
        cases hc2 : checkIfPathIsAllowed st.allowed v with
        | error e => exact ⟨rfl, fun x hx => Or.inl hx⟩
        | ok u' =>
          cases hc3 : getSymLinkTargetType st.fs v with
          | error e => exact ⟨rfl, fun x hx => Or.inl hx⟩
          | ok junction =>
            set st' : MState :=
              { st with
                  fs := { st.fs with symlinks := st.fs.symlinks ++ [(k, v, junction)] },
                  trace := st.trace ++
                    [TraceOp.statOp v, TraceOp.symlinkOp v k junction] } with hst'
            have hA' : AllowedUnder R st' := hA
            obtain ⟨h1, h2⟩ := ih st' hA' hmem' huniq'
            refine ⟨h1, fun x hx => ?_⟩
            rcases h2 x hx with h | h
            · rw [hst'] at h
              simp only [List.mem_append, List.mem_singleton] at h
              rcases h with h | h
              · exact Or.inl h
              · right
                rw [h]
                exact hk
            · exact Or.inr h

/-- **C1.** A fixture requesting a hard link or symlink whose resolved
target lies outside the root `R` (with the allowed set confined to `R`,
as it is for the whole recursion after the top-level collapse) fails
with `IllegalPathError`, and no file or link is created at the link
path: the hard-link branch rejects before `linkSync`, returning the
state untouched; the symlink branch only records the pair, and at flush
time the containment re-check rejects the pair before `symlinkSync` —
for any pending table containing the pair, the flush fails and no
symlink ever appears at the link path. -/
theorem escape_target_rejected (env : Env) (h : Heap) (fuel : Nat) (st : MState)
    (R : FsPath) (p : FsPath) (s : String) (tbl : SymTable) (hR : R ≠ [])
    (hA : AllowedUnder R st)
    (hesc : isUnder R (resolvePath (dirnameSegs (normSegs p)) s) = false) :
    (Fixture.make env h (fuel + 1) st p (.fixture .link (.str s)) (some tbl) =
      some (st, tbl,
        some (.illegalPath (dirnameSegs (resolvePath (dirnameSegs (normSegs p)) s))))) ∧
    (Fixture.make env h (fuel + 1) st p (.fixture .symlink (.str s)) (some tbl) =
      some (st, upsertTable tbl (normSegs p) (resolvePath (dirnameSegs (normSegs p)) s),
            none)) ∧
    (dirnameSegs (normSegs p) ∈ st.allowed →
      flushSymlinks st [(normSegs p, resolvePath (dirnameSegs (normSegs p)) s)] =
        (st, some (.illegalPath (dirnameSegs (resolvePath (dirnameSegs (normSegs p)) s))))) ∧
    (∀ q, (q, resolvePath (dirnameSegs (normSegs p)) s) ∈ tbl →
      (∀ kv ∈ tbl, kv.1 = q → kv.2 = resolvePath (dirnameSegs (normSegs p)) s) →
      (flushSymlinks st tbl).2.isSome = true ∧
      (∀ x ∈ (flushSymlinks st tbl).1.fs.symlinks, x ∈ st.fs.symlinks ∨ x.1 ≠ q)) := by
  have hnm : dirnameSegs (resolvePath (dirnameSegs (normSegs p)) s) ∉ st.allowed :=
    dirname_not_mem_of_escape hR hA hesc
  have hc : checkIfPathIsAllowed st.allowed (resolvePath (dirnameSegs (normSegs p)) s) =
      .error (.illegalPath (dirnameSegs (resolvePath (dirnameSegs (normSegs p)) s))) := by
    unfold checkIfPathIsAllowed
    simp [hnm]
  refine ⟨?_, rfl, ?_, ?_⟩
  · rw [make_succ_fixture_table]
    simp only [makeDispatch]
    rw [hc]
  · intro hmem
    rw [flushSymlinks_cons]
    have hcq : checkIfPathIsAllowed st.allowed (normSegs p) = .ok () := by
      unfold checkIfPathIsAllowed
      simp [hmem]
    rw [hcq, hc]
  · intro q hmem huniq
    exact flush_escape_aux R hR _ hesc q tbl st hA hmem huniq

/-- Witness for C1: under root `/tmp/fix`, a hard link to
`../escaped.txt` is rejected with `IllegalPathError` naming `/tmp` and
the state is untouched, and flushing the corresponding recorded symlink
pair fails the same way with no symlink created. -/
theorem escape_target_rejected_witness :
    (Fixture.make env0 [] 1 stC1 ["tmp", "fix", "esc"]
        (.fixture .link (.str "../escaped.txt"))
        (some [(["tmp", "fix", "esc"], ["tmp", "escaped.txt"])]) =
      some (stC1, [(["tmp", "fix", "esc"], ["tmp", "escaped.txt"])],
            some (.illegalPath ["tmp"]))) ∧
    (flushSymlinks stC1 [(["tmp", "fix", "esc"], ["tmp", "escaped.txt"])] =
      (stC1, some (.illegalPath ["tmp"]))) ∧
    ((flushSymlinks stC1 [(["tmp", "fix", "esc"], ["tmp", "escaped.txt"])]).2.isSome = true) := by
  have T := escape_target_rejected env0 [] 0 stC1 ["tmp", "fix"] ["tmp", "fix", "esc"]
    "../escaped.txt" [(["tmp", "fix", "esc"], ["tmp", "escaped.txt"])]
    (by decide) (by unfold AllowedUnder; decide) (by decide)
  exact ⟨T.1, T.2.2.1 (by decide),
    (T.2.2.2 ["tmp", "fix", "esc"] (by decide) (by decide)).1⟩

/- ### Supporting lemmas: the containment invariant -/

theorem isUnder_refl (r : FsPath) : isUnder r r = true := by
  rw [isUnder_iff]
  exact (List.take_length r).symm

theorem checkAllowed_ok_mem {allowed : List FsPath} {p : FsPath} {u : Unit}
    (hc : checkIfPathIsAllowed allowed p = .ok u) : dirnameSegs p ∈ allowed := by
  unfold checkIfPathIsAllowed at hc
  by_cases hm : dirnameSegs p ∈ allowed
  · exact hm
  · simp [hm] at hc

theorem checkAllowed_mem_ok {allowed : List FsPath} {p : FsPath}
    (hm : dirnameSegs p ∈ allowed) : checkIfPathIsAllowed allowed p = .ok () := by
  unfold checkIfPathIsAllowed
  simp [hm]

/-- The directories `mkdirp` creates below an allowed parent are strictly
inside the root (its ancestors already exist). -/
theorem mkdirp_new_dirs {R np : FsPath} (hs : StrictlyUnder R np) {fs : FS}
    (hAnc : AncestorsIn R fs) :
    ∀ d ∈ (mkdirpFs fs np).dirs, d ∈ fs.dirs ∨ StrictlyUnder R d := by
  intro d hd
  rcases mem_mkdirpFs.mp hd with h | ⟨hpref, hnot⟩
  · exact Or.inl h
  · rcases mem_prefixesOf.mp hpref with ⟨i, h1, hi, rfl⟩
    by_cases hlen : i ≤ R.length
    · exact absurd (hAnc _ (take_mem_prefixesOf hs.1 h1 hlen)) hnot
    · push_neg at hlen
      right
      refine ⟨isUnder_take hs.1 (le_of_lt hlen), ?_⟩
      intro hEq
      have hl : (np.take i).length = i := by
        rw [List.length_take]
        omega
      rw [hEq] at hl
      omega

theorem ancestors_mkdirp_self {R : FsPath} {fs : FS} : AncestorsIn R (mkdirpFs fs R) := by
  intro q hq
  rw [mem_mkdirpFs]
  by_cases hin : q ∈ fs.dirs
  · exact Or.inl hin
  · exact Or.inr ⟨hq, hin⟩

theorem makeEntries_nil
    (step : MState → FsPath → RawValue → Option SymTable → Option (MState × SymTable × Option Err))
    (base : FsPath) (st : MState) (sy : SymTable) :
    makeEntries step base st sy [] = some (st, sy, none) := rfl

theorem makeEntries_cons
    (step : MState → FsPath → RawValue → Option SymTable → Option (MState × SymTable × Option Err))
    (base : FsPath) (st : MState) (sy : SymTable) (name : String) (v : RawValue)
    (rest : List (String × RawValue)) :
    makeEntries step base st sy ((name, v) :: rest) =
      (match step st (joinSegs base name) v (some sy) with
       | none => none
       | some (st', sy', some e) => some (st', sy', some e)
       | some (st', sy', none) => makeEntries step base st' sy' rest) := rfl

/-- The entry loop preserves the containment invariant: starting from a
state whose allowed set is confined to `R` and whose root ancestors
exist, any state it produces (on success or at the point of abort) has
only grown within `R`. -/
theorem makeEntries_inv (R : FsPath)
    (step : MState → FsPath → RawValue → Option SymTable → Option (MState × SymTable × Option Err))
    (hstep : ∀ st p v tbl out, AllowedUnder R st → AncestorsIn R st.fs →
      step st p v (some tbl) = some out → GrowsWithin R st out.1)
    (base : FsPath) :
    ∀ (entries : List (String × RawValue)) (st : MState) (sy : SymTable)
      (out : MState × SymTable × Option Err),
      AllowedUnder R st → AncestorsIn R st.fs →
      makeEntries step base st sy entries = some out →
      GrowsWithin R st out.1 := by
  intro entries
  induction entries with
  | nil =>
    intro st sy out hA _ hmk
    rw [makeEntries_nil] at hmk
    cases hmk
    exact growsWithin_refl hA
  | cons hd rest ih =>
    intro st sy out hA hAnc hmk
    obtain ⟨name, v⟩ := hd
    rw [makeEntries_cons] at hmk
    cases hs : step st (joinSegs base name) v (some sy) with
    | none => rw [hs] at hmk; cases hmk
    | some r =>
      obtain ⟨st', sy', err⟩ := r
      have hg : GrowsWithin R st st' := hstep st _ v sy (st', sy', err) hA hAnc hs
      rw [hs] at hmk
      cases err with
      | some e =>
        cases hmk
        exact hg
      | none =>
        have hA' : AllowedUnder R st' := hg.1
        have hAnc' : AncestorsIn R st'.fs := fun q hq => hg.2.2.2.2.2 q (hAnc q hq)
        exact growsWithin_trans hg (ih st' sy' out hA' hAnc' hmk)

/-- The kind dispatch of a nested (non-root) step preserves the
containment invariant. -/
theorem dispatch_inv (h : Heap) (R : FsPath) (hR : R ≠ [])
    (step : MState → FsPath → RawValue → Option SymTable → Option (MState × SymTable × Option Err))
    (hstep : ∀ st p v tbl out, AllowedUnder R st → AncestorsIn R st.fs →
      step st p v (some tbl) = some out → GrowsWithin R st out.1) :
    ∀ (st : MState) (np : FsPath) (ftype : FixtureType) (fcontent : RawValue)
      (tbl : SymTable) (out : MState × SymTable × Option Err),
      AllowedUnder R st → AncestorsIn R st.fs →
      makeDispatch h step false st np ftype fcontent tbl = some out →
      GrowsWithin R st out.1 := by
  intro st np ftype fcontent tbl out hA hAnc hmk
  cases ftype with
  | dir =>
    simp only [makeDispatch] at hmk
    cases hc : checkIfPathIsAllowed st.allowed np with
    | error e =>
      rw [hc] at hmk
      cases hmk
      exact growsWithin_refl hA
    | ok u =>
      rw [hc] at hmk
      simp only [Bool.false_eq_true, if_false, if_neg] at hmk
      have hsnp : StrictlyUnder R np :=
        strictlyUnder_of_dirname_mem hR hA (checkAllowed_ok_mem hc)
      set st2 : MState :=
        { fs := mkdirpFs st.fs np,
          allowed := insertPath st.allowed np,
          trace := st.trace ++ [TraceOp.mkdirOp np] } with hst2
      have hg2 : GrowsWithin R st st2 := by
        refine ⟨?_, ?_, fun f hf => Or.inl hf, fun l hl => Or.inl hl, rfl, ?_⟩
        · intro a ha
          rcases mem_insertPath.mp ha with h' | h'
          · exact hA a h'
          · rw [h']
            exact hsnp.1
        · exact mkdirp_new_dirs hsnp hAnc
        · intro d hd
          rw [hst2]
          simp only [mkdirpFs, List.mem_append]
          exact Or.inl hd
      cases hj : jsEntries h fcontent with
      | error e =>
        rw [hj] at hmk
        cases hmk
        exact hg2
      | ok entries =>
        rw [hj] at hmk
        have hA2 : AllowedUnder R st2 := hg2.1
        have hAnc2 : AncestorsIn R st2.fs := fun q hq => hg2.2.2.2.2.2 q (hAnc q hq)
        exact growsWithin_trans hg2
          (makeEntries_inv R step hstep np entries st2 tbl out hA2 hAnc2 hmk)
  | file =>
    simp only [makeDispatch] at hmk
    cases hc : checkIfPathIsAllowed st.allowed np with
    | error e =>
      rw [hc] at hmk
      cases hmk
      exact growsWithin_refl hA
    | ok u =>
      rw [hc] at hmk
      cases hmk
      have hsnp : StrictlyUnder R np :=
        strictlyUnder_of_dirname_mem hR hA (checkAllowed_ok_mem hc)
      refine ⟨hA, fun d hd => Or.inl hd, ?_, fun l hl => Or.inl hl, rfl, fun d hd => hd⟩
      intro f hf
      rcases mem_upsertFile hf with h' | h'
      · exact Or.inl h'
      · right
        rw [h']
        exact hsnp
  | link =>
    simp only [makeDispatch] at hmk
    cases fcontent with
    | str s =>
      simp only [] at hmk
      cases hc1 : checkIfPathIsAllowed st.allowed (resolvePath (dirnameSegs np) s) with
      | error e =>
        rw [hc1] at hmk
        cases hmk
        exact growsWithin_refl hA
      | ok u =>
        rw [hc1] at hmk
        cases hc2 : checkIfPathIsAllowed st.allowed np with
        | error e =>
          rw [hc2] at hmk
          cases hmk
          exact growsWithin_refl hA
        | ok u' =>
          rw [hc2] at hmk
          by_cases hex : fileExistsAt st.fs (resolvePath (dirnameSegs np) s) = true
          · rw [if_pos hex] at hmk
            cases hmk
            have hs1 : StrictlyUnder R np :=
              strictlyUnder_of_dirname_mem hR hA (checkAllowed_ok_mem hc2)
            have hs2 : StrictlyUnder R (resolvePath (dirnameSegs np) s) :=
              strictlyUnder_of_dirname_mem hR hA (checkAllowed_ok_mem hc1)
            refine ⟨hA, fun d hd => Or.inl hd, fun f hf => Or.inl hf, ?_, rfl,
              fun d hd => hd⟩
            intro l hl
            simp only [List.mem_append, List.mem_singleton] at hl
            rcases hl with h' | h'
            · exact Or.inl h'
            · right
              rw [h']
              exact ⟨hs1, hs2⟩
          · rw [if_neg hex] at hmk
            cases hmk
            exact growsWithin_refl hA
    | obj m => cases hmk; exact growsWithin_refl hA
    | bytes bs => cases hmk; exact growsWithin_refl hA
    | num n => cases hmk; exact growsWithin_refl hA
    | boolv b => cases hmk; exact growsWithin_refl hA
    | nullv => cases hmk; exact growsWithin_refl hA
    | undef => cases hmk; exact growsWithin_refl hA
    | fixture t c => cases hmk; exact growsWithin_refl hA
  | symlink =>
    simp only [makeDispatch] at hmk
    cases fcontent with
    | str s =>
      cases hmk
      exact growsWithin_refl hA
    | obj m => cases hmk; exact growsWithin_refl hA
    | bytes bs => cases hmk; exact growsWithin_refl hA
    | num n => cases hmk; exact growsWithin_refl hA
    | boolv b => cases hmk; exact growsWithin_refl hA
    | nullv => cases hmk; exact growsWithin_refl hA
    | undef => cases hmk; exact growsWithin_refl hA
    | fixture t c => cases hmk; exact growsWithin_refl hA

/-- Every nested (non-root) `Fixture.make` call preserves the
containment invariant. -/
theorem make_inv (env : Env) (h : Heap) (R : FsPath) (hR : R ≠ []) :
    ∀ (fuel : Nat) (st : MState) (p : FsPath) (v : RawValue) (tbl : SymTable)
      (out : MState × SymTable × Option Err),
      AllowedUnder R st → AncestorsIn R st.fs →
      Fixture.make env h fuel st p v (some tbl) = some out →
      GrowsWithin R st out.1 := by
  intro fuel
  induction fuel with
  | zero =>
    intro st p v tbl out _ _ hmk
    rw [make_zero] at hmk
    cases hmk
  | succ n ih =>
    intro st p v tbl out hA hAnc hmk
    cases hraw : rawToFixture h (n + 1) v with
    | none =>
      rw [make_succ_rawnone _ _ _ _ _ _ _ hraw] at hmk
      cases hmk
    | some r =>
      cases r with
      | error e =>
        rw [make_succ_rawerr _ _ _ _ _ _ _ _ hraw] at hmk
        cases hmk
        exact growsWithin_refl hA
      | ok tc =>
        obtain ⟨ftype, fcontent⟩ := tc
        rw [make_succ_rawok_table _ _ _ _ _ _ _ _ _ hraw] at hmk
        exact dispatch_inv h R hR _
          (fun st' p' v' tbl' out' hA' hAnc' hmk' => ih st' p' v' tbl' out' hA' hAnc' hmk')
          st (normSegs p) ftype fcontent tbl out hA hAnc hmk

/-- The flush loop only appends symlinks whose path and target are
strictly inside `R`; everything else in the state is untouched. -/
theorem flush_inv (R : FsPath) (hR : R ≠ []) :
    ∀ (tbl : SymTable) (st : MState), AllowedUnder R st →
      (flushSymlinks st tbl).1.fs.dirs = st.fs.dirs ∧
      (flushSymlinks st tbl).1.fs.files = st.fs.files ∧
      (flushSymlinks st tbl).1.fs.hardlinks = st.fs.hardlinks ∧
      (flushSymlinks st tbl).1.allowed = st.allowed ∧
      (∀ x ∈ (flushSymlinks st tbl).1.fs.symlinks,
        x ∈ st.fs.symlinks ∨ (StrictlyUnder R x.1 ∧ StrictlyUnder R x.2.1)) := by
  intro tbl
  induction tbl with
  | nil =>
    intro st _
    rw [flushSymlinks_nil]
    exact ⟨rfl, rfl, rfl, rfl, fun x hx => Or.inl hx⟩
  | cons hd rest ih =>
    intro st hA
    obtain ⟨k, v⟩ := hd
    rw [flushSymlinks_cons]
    cases hc1 : checkIfPathIsAllowed st.allowed k with
    | error e => exact ⟨rfl, rfl, rfl, rfl, fun x hx => Or.inl hx⟩
    | ok u =>
      cases hc2 : checkIfPathIsAllowed st.allowed v with
      | error e => exact ⟨rfl, rfl, rfl, rfl, fun x hx => Or.inl hx⟩
      | ok u' =>
        cases hc3 : getSymLinkTargetType st.fs v with
        | error e => exact ⟨rfl, rfl, rfl, rfl, fun x hx => Or.inl hx⟩
        | ok junction =>
          set st' : MState :=
            { st with
                fs := { st.fs with symlinks := st.fs.symlinks ++ [(k, v, junction)] },
                trace := st.trace ++
                  [TraceOp.statOp v, TraceOp.symlinkOp v k junction] } with hst'
          have hA' : AllowedUnder R st' := hA
          obtain ⟨d1, f1, l1, a1, s1⟩ := ih st' hA'
          refine ⟨d1, f1, l1, a1, ?_⟩
          intro x hx
          rcases s1 x hx with hmem | hstrict
          · rw [hst'] at hmem
            simp only [List.mem_append, List.mem_singleton] at hmem
            rcases hmem with h' | h'
            · exact Or.inl h'
            · right
              rw [h']
              exact ⟨strictlyUnder_of_dirname_mem hR hA (checkAllowed_ok_mem hc1),
                     strictlyUnder_of_dirname_mem hR hA (checkAllowed_ok_mem hc2)⟩
          · exact Or.inr hstrict

theorem insertPath_nil (p : FsPath) : insertPath [] p = [p] := by
  simp [insertPath]

/-- **C10.** Within a single top-level materialization of a directory
fixture (root `R = normSegs p`), once the allowed set has collapsed to
the freshly created root, every path added to the set is a directory
whose parent was a member at check time; consequently, on success every
member of the final allowed set is the root or a strict descendant of
it, and every directory, file, hard link, or symlink the call created
lies inside the root (new directories other than the root's own
ancestors, and all files/links, strictly so). -/
theorem post_collapse_containment (env : Env) (h : Heap) (fuel : Nat) (st : MState)
    (p : FsPath) (v : RawValue) (fcontent : RawValue)
    (out : MState × SymTable × Option Err)
    (hR : normSegs p ≠ [])
    (hdir : rawToFixture h (fuel + 1) v = some (.ok (.dir, fcontent)))
    (hmk : Fixture.make env h (fuel + 1) st p v none = some out) :
    (out.2.2 = none → ∀ a ∈ out.1.allowed, isUnder (normSegs p) a = true) ∧
    (∀ d ∈ out.1.fs.dirs, d ∈ st.fs.dirs ∨ d ∈ prefixesOf (normSegs p) ∨
      StrictlyUnder (normSegs p) d) ∧
    (∀ f ∈ out.1.fs.files, f ∈ st.fs.files ∨ StrictlyUnder (normSegs p) f.1) ∧
    (∀ l ∈ out.1.fs.hardlinks, l ∈ st.fs.hardlinks ∨
      (StrictlyUnder (normSegs p) l.1 ∧ StrictlyUnder (normSegs p) l.2)) ∧
    (∀ x ∈ out.1.fs.symlinks, x ∈ st.fs.symlinks ∨
      (StrictlyUnder (normSegs p) x.1 ∧ StrictlyUnder (normSegs p) x.2.1)) := by
  rw [make_succ_rawok_root _ _ _ _ _ _ _ _ hdir] at hmk
  simp only [makeDispatch] at hmk
  cases hc : checkIfPathIsAllowed (resetAllowedPaths env) (normSegs p) with
  | error e =>
    rw [show checkIfPathIsAllowed
          ({ st with allowed := resetAllowedPaths env } : MState).allowed (normSegs p) =
        .error e from hc] at hmk
    cases hmk
    exact ⟨fun hnone => Option.noConfusion hnone, fun d hd => Or.inl hd,
      fun f hf => Or.inl hf, fun l hl => Or.inl hl, fun x hx => Or.inl hx⟩
  | ok u =>
    rw [show checkIfPathIsAllowed
          ({ st with allowed := resetAllowedPaths env } : MState).allowed (normSegs p) =
        .ok u from hc] at hmk
    simp only [insertPath_nil, if_pos] at hmk
    set R := normSegs p with hRdef
    set st2 : MState :=
      { fs := mkdirpFs st.fs R,
        allowed := [R],
        trace := st.trace ++ [TraceOp.mkdirOp R] } with hst2
    have hA2 : AllowedUnder R st2 := by
      intro a ha
      rw [hst2] at ha
      simp only [List.mem_singleton] at ha
      rw [ha]
      exact isUnder_refl R
    have hAnc2 : AncestorsIn R st2.fs := ancestors_mkdirp_self
    have hdirs2 : ∀ d ∈ st2.fs.dirs, d ∈ st.fs.dirs ∨ d ∈ prefixesOf R := by
      intro d hd
      rcases mem_mkdirpFs.mp hd with h' | ⟨h', _⟩
      · exact Or.inl h'
      · exact Or.inr h'
    cases hj : jsEntries h fcontent with
    | error e =>
      rw [hj] at hmk
      cases hmk
      refine ⟨fun hnone => Option.noConfusion hnone, ?_, fun f hf => Or.inl hf,
        fun l hl => Or.inl hl, fun x hx => Or.inl hx⟩
      intro d hd
      rcases hdirs2 d hd with h' | h'
      · exact Or.inl h'
      · exact Or.inr (Or.inl h')
    | ok entries =>
      rw [hj] at hmk
      have hmk2 : (match makeEntries (fun st p v sy => Fixture.make env h fuel st p v sy)
            R st2 [] entries with
          | none => none
          | some (st', sy', some e) => some (st', sy', some e)
          | some (st', sy', none) =>
            some ((flushSymlinks st' sy').1, sy', (flushSymlinks st' sy').2)) = some out := hmk
      clear hmk
      cases hloop : makeEntries (fun st p v sy => Fixture.make env h fuel st p v sy)
          R st2 [] entries with
      | none => rw [hloop] at hmk2; cases hmk2
      | some r3 =>
        obtain ⟨st3, sy3, err3⟩ := r3
        rw [hloop] at hmk2
        have hg : GrowsWithin R st2 st3 :=
          makeEntries_inv R _
            (fun st' p' v' tbl' out' hA' hAnc' hmk' =>
              make_inv env h R hR fuel st' p' v' tbl' out' hA' hAnc' hmk')
            R entries st2 [] (st3, sy3, err3) hA2 hAnc2 hloop
        have hdirs3 : ∀ d ∈ st3.fs.dirs,
            d ∈ st.fs.dirs ∨ d ∈ prefixesOf R ∨ StrictlyUnder R d := by
          intro d hd
          rcases hg.2.1 d hd with h' | h'
          · rcases hdirs2 d h' with h'' | h''
            · exact Or.inl h''
            · exact Or.inr (Or.inl h'')
          · exact Or.inr (Or.inr h')
        have hfiles3 : ∀ f ∈ st3.fs.files, f ∈ st.fs.files ∨ StrictlyUnder R f.1 := by
          intro f hf
          rcases hg.2.2.1 f hf with h' | h'
          · exact Or.inl h'
          · exact Or.inr h'
        have hlinks3 : ∀ l ∈ st3.fs.hardlinks,
            l ∈ st.fs.hardlinks ∨ (StrictlyUnder R l.1 ∧ StrictlyUnder R l.2) := by
          intro l hl
          rcases hg.2.2.2.1 l hl with h' | h'
          · exact Or.inl h'
          · exact Or.inr h'
        have hsym3 : st3.fs.symlinks = st.fs.symlinks := hg.2.2.2.2.1
        cases err3 with
        | some e =>
          cases hmk2
          refine ⟨fun hnone => Option.noConfusion hnone, hdirs3, hfiles3, hlinks3, ?_⟩
          intro x hx
          rw [hsym3] at hx
          exact Or.inl hx
        | none =>
          cases hmk2
          obtain ⟨fd, ff, fl, fa, fsym⟩ := flush_inv R hR sy3 st3 hg.1
          refine ⟨?_, ?_, ?_, ?_, ?_⟩
          · intro _ a ha
            rw [fa] at ha
            exact hg.1 a ha
          · intro d hd
            rw [fd] at hd
            exact hdirs3 d hd
          · intro f hf
            rw [ff] at hf
            exact hfiles3 f hf
          · intro l hl
            rw [fl] at hl
            exact hlinks3 l hl
          · intro x hx
            rcases fsym x hx with h' | h'
            · rw [hsym3] at h'
              exact Or.inl h'
            · exact Or.inr h'

/-- Witness for C10: the file created by the concrete materialization of
`heapLinkFirst` under root `/tmp/fix` is strictly inside that root. -/
theorem post_collapse_containment_witness :
    StrictlyUnder ["tmp", "fix"] ["tmp", "fix", "sibling", "f.txt"] := by
  have T := post_collapse_containment env0 heapLinkFirst 9 st0 ["tmp", "fix"]
    (.obj 0) (.obj 0) outC10 (by decide) (by rfl) (by decide)
  have h3 := T.2.2.1 (["tmp", "fix", "sibling", "f.txt"], RawValue.str "x") (by decide)
  rcases h3 with h | h
  · exact absurd h (by decide)
  · exact h

/- ### Supporting lemmas: sync/async equivalence -/

theorem rawToType_eq : FixtureAsync.rawToType = rawToType := rfl

theorem checkIfPathIsAllowed_eq : FixtureAsync.checkIfPathIsAllowed = checkIfPathIsAllowed := rfl

theorem checkIfPathExists_eq : FixtureAsync.checkIfPathExists = checkIfPathExists := rfl

theorem resetAllowedPaths_eq : FixtureAsync.resetAllowedPaths = resetAllowedPaths := rfl

theorem getSymLinkTargetType_eq : FixtureAsync.getSymLinkTargetType = getSymLinkTargetType := rfl

theorem asyncValidateEntries_nil (step : ObjId → List ObjId → Option (Except Err (List ObjId)))
    (seen : List ObjId) : FixtureAsync.validateEntries step [] seen = some (.ok seen) := rfl

theorem asyncValidateEntries_cons (step : ObjId → List ObjId → Option (Except Err (List ObjId)))
    (name : String) (v : RawValue) (rest : List (String × RawValue)) (seen : List ObjId) :
    FixtureAsync.validateEntries step ((name, v) :: rest) seen =
      (match rawToType v with
       | .error e => some (.error e)
       | .ok _ =>
         match v with
         | .obj m =>
           if m ∈ seen then some (.error (.cycleDetected name))
           else
             match step m (m :: seen) with
             | none => none
             | some (.error e) => some (.error e)
             | some (.ok seen') => FixtureAsync.validateEntries step rest seen'
         | .nullv => some (.error .entriesOfNull)
         | _ => FixtureAsync.validateEntries step rest seen) := rfl

theorem validateEntries_eq (step : ObjId → List ObjId → Option (Except Err (List ObjId))) :
    ∀ (entries : List (String × RawValue)) (seen : List ObjId),
      FixtureAsync.validateEntries step entries seen = validateEntries step entries seen := by
  intro entries
  induction entries with
  | nil => intro seen; rfl
  | cons hd rest ih =>
    intro seen
    obtain ⟨name, v⟩ := hd
    rw [asyncValidateEntries_cons, validateEntries_cons]
    cases hrt : rawToType v with
    | error e => rfl
    | ok t =>
      cases v with
      | obj m =>
        by_cases hm : m ∈ seen
        · simp [hm]
        · simp only [hm, if_neg, if_false]
          cases step m (m :: seen) with
          | none => rfl
          | some r =>
            cases r with
            | error e => rfl
            | ok seen' => exact ih seen'
      | nullv => rfl
      | str s => exact ih seen
      | bytes bs => exact ih seen
      | num n => cases hrt
      | boolv b => cases hrt
      | undef => cases hrt
      | fixture ft c => exact ih seen

theorem validateEntries_congr
    (step step' : ObjId → List ObjId → Option (Except Err (List ObjId)))
    (hs : ∀ m seen, step m seen = step' m seen) :
    ∀ (entries : List (String × RawValue)) (seen : List ObjId),
      validateEntries step entries seen = validateEntries step' entries seen := by
  intro entries
  induction entries with
  | nil => intro seen; rfl
  | cons hd rest ih =>
    intro seen
    obtain ⟨name, v⟩ := hd
    rw [validateEntries_cons, validateEntries_cons]
    cases hrt : rawToType v with
    | error e => rfl
    | ok t =>
      cases v with
      | obj m =>
        by_cases hm : m ∈ seen
        · simp [hm]
        · simp only [hm, if_neg, if_false]
          rw [hs m (m :: seen)]
          cases step' m (m :: seen) with
          | none => rfl
          | some r =>
            cases r with
            | error e => rfl
            | ok seen' => exact ih seen'
      | nullv => rfl
      | str s => exact ih seen
      | bytes bs => exact ih seen
      | num n => cases hrt
      | boolv b => cases hrt
      | undef => cases hrt
      | fixture ft c => exact ih seen

theorem validateInto_eq (h : Heap) :
    ∀ (fuel : Nat) (m : ObjId) (seen : List ObjId),
      FixtureAsync.validateInto h fuel m seen = validateInto h fuel m seen := by
  intro fuel
  induction fuel with
  | zero => intro m seen; rfl
  | succ n ih =>
    intro m seen
    show FixtureAsync.validateEntries (FixtureAsync.validateInto h n) (heapEntries h m) seen =
      validateEntries (validateInto h n) (heapEntries h m) seen
    rw [validateEntries_eq]
    exact validateEntries_congr _ _ (fun m' seen' => ih m' seen') _ seen

theorem validateDirContents_eq (h : Heap) (fuel : Nat) (content : RawValue)
    (seen : List ObjId) :
    FixtureAsync.validateDirContents h fuel content seen =
      validateDirContents h fuel content seen := by
  unfold FixtureAsync.validateDirContents validateDirContents
  cases jsEntries h content with
  | error e => rfl
  | ok entries =>
    dsimp only
    rw [validateEntries_eq]
    exact validateEntries_congr _ _ (fun m seen' => validateInto_eq h fuel m seen') entries seen

theorem assertValidContent_eq (h : Heap) (fuel : Nat) (t : FixtureType) (content : RawValue) :
    FixtureAsync.assertValidContent h fuel t content =
      assertValidContent h fuel t content := by
  cases t with
  | dir =>
    unfold FixtureAsync.assertValidContent assertValidContent
    dsimp only
    by_cases hobj : jsTypeofIsObject content = true
    · rw [if_pos hobj, if_pos hobj, validateDirContents_eq]
    · rw [if_neg hobj, if_neg hobj]
  | file => rfl
  | link => rfl
  | symlink => rfl

theorem rawToFixture_eq (h : Heap) (fuel : Nat) (content : RawValue) :
    FixtureAsync.rawToFixture h fuel content = rawToFixture h fuel content := by
  cases content with
  | fixture t c => rfl
  | str s => rfl
  | bytes bs => rfl
  | num n => rfl
  | boolv b => rfl
  | undef => rfl
  | nullv =>
    unfold FixtureAsync.rawToFixture rawToFixture
    dsimp only [FixtureAsync.rawToType, rawToType]
    rw [assertValidContent_eq]
  | obj m =>
    unfold FixtureAsync.rawToFixture rawToFixture
    dsimp only [FixtureAsync.rawToType, rawToType]
    rw [assertValidContent_eq]

theorem asyncFlushSymlinks_cons (st : MState) (p t : FsPath) (rest : SymTable) :
    FixtureAsync.flushSymlinks st ((p, t) :: rest) =
      (match checkIfPathIsAllowed st.allowed p with
       | .error e => (st, some e)
       | .ok _ =>
         match checkIfPathIsAllowed st.allowed t with
         | .error e => (st, some e)
         | .ok _ =>
           match getSymLinkTargetType st.fs t with
           | .error e => (st, some e)
           | .ok junction =>
             FixtureAsync.flushSymlinks
               { st with
                   fs := { st.fs with
                             symlinks := st.fs.symlinks ++ [(p, t, junction)] },
                   trace := st.trace ++
                     [TraceOp.statOp t, TraceOp.symlinkOp t p junction] }
               rest) := rfl

theorem flushSymlinks_eq :
    ∀ (tbl : SymTable) (st : MState),
      FixtureAsync.flushSymlinks st tbl = flushSymlinks st tbl := by
  intro tbl
  induction tbl with
  | nil => intro st; rfl
  | cons hd rest ih =>
    intro st
    obtain ⟨p, t⟩ := hd
    rw [asyncFlushSymlinks_cons, flushSymlinks_cons]
    cases checkIfPathIsAllowed st.allowed p with
    | error e => rfl
    | ok u =>
      cases checkIfPathIsAllowed st.allowed t with
      | error e => rfl
      | ok u' =>
        cases getSymLinkTargetType st.fs t with
        | error e => rfl
        | ok junction => exact ih _

theorem asyncMakeEntries_cons
    (step : MState → FsPath → RawValue → Option SymTable → Option (MState × SymTable × Option Err))
    (base : FsPath) (st : MState) (sy : SymTable) (name : String) (v : RawValue)
    (rest : List (String × RawValue)) :
    FixtureAsync.makeEntries step base st sy ((name, v) :: rest) =
      (match step st (joinSegs base name) v (some sy) with
       | none => none
       | some (st', sy', some e) => some (st', sy', some e)
       | some (st', sy', none) => FixtureAsync.makeEntries step base st' sy' rest) := rfl

theorem makeEntries_eq_congr
    (step step' : MState → FsPath → RawValue → Option SymTable → Option (MState × SymTable × Option Err))
    (hs : ∀ st p v sy, step st p v sy = step' st p v sy) (base : FsPath) :
    ∀ (entries : List (String × RawValue)) (st : MState) (sy : SymTable),
      FixtureAsync.makeEntries step base st sy entries = makeEntries step' base st sy entries := by
  intro entries
  induction entries with
  | nil => intro st sy; rfl
  | cons hd rest ih =>
    intro st sy
    obtain ⟨name, v⟩ := hd
    rw [asyncMakeEntries_cons, makeEntries_cons, hs]
    cases step' st (joinSegs base name) v (some sy) with
    | none => rfl
    | some r =>
      obtain ⟨st', sy', err⟩ := r
      cases err with
      | some e => rfl
      | none => exact ih st' sy'

theorem makeDispatch_eq_congr (h : Heap)
    (step step' : MState → FsPath → RawValue → Option SymTable → Option (MState × SymTable × Option Err))
    (hs : ∀ st p v sy, step st p v sy = step' st p v sy)
    (isRoot : Bool) (st : MState) (np : FsPath) (ftype : FixtureType)
    (fcontent : RawValue) (symlinks : SymTable) :
    FixtureAsync.makeDispatch h step isRoot st np ftype fcontent symlinks =
      makeDispatch h step' isRoot st np ftype fcontent symlinks := by
  cases ftype with
  | dir =>
    unfold FixtureAsync.makeDispatch makeDispatch
    dsimp only
    rw [checkIfPathIsAllowed_eq]
    cases checkIfPathIsAllowed st.allowed np with
    | error e => rfl
    | ok u =>
      dsimp only
      cases jsEntries h fcontent with
      | error e => rfl
      | ok entries =>
        dsimp only
        exact makeEntries_eq_congr step step' hs np entries _ _
  | file => rfl
  | link => rfl
  | symlink => rfl

theorem asyncMake_succ (env : Env) (h : Heap) (fuel : Nat) (st : MState) (p : FsPath)
    (v : RawValue) (sy : Option SymTable) :
    FixtureAsync.make env h (fuel + 1) st p v sy =
      (match FixtureAsync.rawToFixture h (fuel + 1) v with
       | none => none
       | some (.error e) => some (st, sy.getD [], some e)
       | some (.ok (ftype, fcontent)) =>
         let isRoot := sy.isNone
         let symlinks := sy.getD []
         let st := if isRoot then { st with allowed := resetAllowedPaths env } else st
         match FixtureAsync.makeDispatch h
                 (fun st p v sy => FixtureAsync.make env h fuel st p v sy)
                 isRoot st (normSegs p) ftype fcontent symlinks with
         | none => none
         | some (st', sy', some e) => some (st', sy', some e)
         | some (st', sy', none) =>
           if isRoot then
             let flushed := FixtureAsync.flushSymlinks st' sy'
             some (flushed.1, sy', flushed.2)
           else some (st', sy', none)) := rfl

theorem asyncMake_succ_rawok_table (env : Env) (h : Heap) (fuel : Nat) (st : MState)
    (p : FsPath) (v : RawValue) (tbl : SymTable) (ftype : FixtureType) (fcontent : RawValue)
    (hraw : FixtureAsync.rawToFixture h (fuel + 1) v = some (.ok (ftype, fcontent))) :
    FixtureAsync.make env h (fuel + 1) st p v (some tbl) =
      FixtureAsync.makeDispatch h (fun st p v sy => FixtureAsync.make env h fuel st p v sy)
        false st (normSegs p) ftype fcontent tbl := by
  rw [asyncMake_succ, hraw]
  exact postlude_id _

theorem asyncMake_succ_rawok_root (env : Env) (h : Heap) (fuel : Nat) (st : MState)
    (p : FsPath) (v : RawValue) (ftype : FixtureType) (fcontent : RawValue)
    (hraw : FixtureAsync.rawToFixture h (fuel + 1) v = some (.ok (ftype, fcontent))) :
    FixtureAsync.make env h (fuel + 1) st p v none =
      (match FixtureAsync.makeDispatch h
               (fun st p v sy => FixtureAsync.make env h fuel st p v sy)
               true { st with allowed := resetAllowedPaths env } (normSegs p) ftype fcontent [] with
       | none => none
       | some (st', sy', some e) => some (st', sy', some e)
       | some (st', sy', none) =>
         some ((FixtureAsync.flushSymlinks st' sy').1, sy',
               (FixtureAsync.flushSymlinks st' sy').2)) := by
  rw [asyncMake_succ, hraw]
  rfl

theorem asyncMake_succ_rawerr (env : Env) (h : Heap) (fuel : Nat) (st : MState)
    (p : FsPath) (v : RawValue) (sy : Option SymTable) (e : Err)
    (hraw : FixtureAsync.rawToFixture h (fuel + 1) v = some (.error e)) :
    FixtureAsync.make env h (fuel + 1) st p v sy = some (st, sy.getD [], some e) := by
  rw [asyncMake_succ, hraw]

theorem asyncMake_succ_rawnone (env : Env) (h : Heap) (fuel : Nat) (st : MState)
    (p : FsPath) (v : RawValue) (sy : Option SymTable)
    (hraw : FixtureAsync.rawToFixture h (fuel + 1) v = none) :
    FixtureAsync.make env h (fuel + 1) st p v sy = none := by
  rw [asyncMake_succ, hraw]

/-- **C9.** For every environment, heap, fuel, state, path, content and
pending table, the asynchronous `FixtureAsync.make` computes exactly the
same result as the synchronous `Fixture.make`: the same final
filesystem, the same allowed set, the same operation trace (hence the
same filesystem operations in the same depth-first, left-to-right,
parent-before-children order), the same pending-symlink table, and the
same error, on every input. -/
theorem asyncMake_eq_syncMake (env : Env) (h : Heap) :
    ∀ (fuel : Nat) (st : MState) (p : FsPath) (v : RawValue) (sy : Option SymTable),
      FixtureAsync.make env h fuel st p v sy = Fixture.make env h fuel st p v sy := by
  intro fuel
  induction fuel with
  | zero => intro st p v sy; rfl
  | succ n ih =>
    intro st p v sy
    cases hraw : rawToFixture h (n + 1) v with
    | none =>
      have hrawA : FixtureAsync.rawToFixture h (n + 1) v = none := by
        rw [rawToFixture_eq]; exact hraw
      rw [asyncMake_succ_rawnone _ _ _ _ _ _ _ hrawA, make_succ_rawnone _ _ _ _ _ _ _ hraw]
    | some r =>
      cases r with
      | error e =>
        have hrawA : FixtureAsync.rawToFixture h (n + 1) v = some (.error e) := by
          rw [rawToFixture_eq]; exact hraw
        rw [asyncMake_succ_rawerr _ _ _ _ _ _ _ _ hrawA,
            make_succ_rawerr _ _ _ _ _ _ _ _ hraw]
      | ok tc =>
        obtain ⟨ft, fc⟩ := tc
        have hrawA : FixtureAsync.rawToFixture h (n + 1) v = some (.ok (ft, fc)) := by
          rw [rawToFixture_eq]; exact hraw
        cases sy with
        | some tbl =>
          rw [asyncMake_succ_rawok_table _ _ _ _ _ _ _ _ _ hrawA,
              make_succ_rawok_table _ _ _ _ _ _ _ _ _ hraw]
          exact makeDispatch_eq_congr h _ _ (fun st' p' v' sy' => ih st' p' v' sy')
            false st (normSegs p) ft fc tbl
        | none =>
          rw [asyncMake_succ_rawok_root _ _ _ _ _ _ _ _ hrawA,
              make_succ_rawok_root _ _ _ _ _ _ _ _ hraw]
          rw [makeDispatch_eq_congr h _ _ (fun st' p' v' sy' => ih st' p' v' sy')
            true { st with allowed := resetAllowedPaths env } (normSegs p) ft fc []]
          simp only [flushSymlinks_eq]

/- ### Supporting lemmas: cycle detection -/

theorem goodHeap_entries {h : Heap} (hg : goodHeap h = true) (m : ObjId) :
    entGood h.length (heapEntries h m) := by
  intro kv hkv
  unfold heapEntries at hkv
  by_cases hm : m < h.length
  · rw [List.getD_eq_getElem?_getD, List.getElem?_eq_getElem hm] at hkv
    simp only [Option.getD_some] at hkv
    have hl := (List.all_eq_true.mp hg) _ (List.getElem_mem hm)
    have hkv' := (List.all_eq_true.mp hl) _ hkv
    rw [Bool.and_eq_true] at hkv'
    refine ⟨hkv'.1, ?_⟩
    intro m' hm'
    have := hkv'.2
    rw [hm'] at this
    simpa using this
  · rw [List.getD_eq_getElem?_getD, List.getElem?_eq_none (Nat.le_of_not_lt hm)] at hkv
    simp at hkv

theorem validLeaf_rawToType {v : RawValue} (hv : validLeaf v = true) :
    ∃ t, rawToType v = .ok t := by
  cases v <;> simp [validLeaf] at hv ⊢ <;> simp [rawToType]

theorem nodup_bounded_length {l : List Nat} {n : Nat} (hn : l.Nodup)
    (hb : ∀ x ∈ l, x < n) : l.length ≤ n := by
  have hsub : l.toFinset ⊆ Finset.range n := by
    intro x hx
    rw [List.mem_toFinset] at hx
    rw [Finset.mem_range]
    exact hb x hx
  have hcard := Finset.card_le_card hsub
  rw [List.toFinset_card_of_nodup hn, Finset.card_range] at hcard
  exact hcard

theorem pathTo_shape {h : Heap} {entries : List (String × RawValue)} {p : List Nat}
    {m : ObjId} (hp : PathTo h entries p m) : ∃ i p', p = i :: p' := by
  cases hp with
  | here _ => exact ⟨_, [], rfl⟩
  | step _ _ => exact ⟨_, _, rfl⟩

theorem pathTo_nil_entries {h : Heap} {p : List Nat} {m : ObjId}
    (hp : PathTo h [] p m) : False := by
  cases hp with
  | here hget => simp at hget
  | step hget _ => simp at hget

theorem pathTo_unshift {h : Heap} {e : String × RawValue}
    {rest : List (String × RawValue)} {j : Nat} {p' : List Nat} {m : ObjId}
    (hp : PathTo h (e :: rest) ((j + 1) :: p') m) : PathTo h rest (j :: p') m := by
  cases hp with
  | here hget =>
    rw [List.get?_cons_succ] at hget
    exact PathTo.here hget
  | step hget hp' =>
    rw [List.get?_cons_succ] at hget
    exact PathTo.step hget hp'

theorem pathTo_zero_cases {h : Heap} {nm : String} {v : RawValue}
    {rest : List (String × RawValue)} {p' : List Nat} {m : ObjId}
    (hp : PathTo h ((nm, v) :: rest) (0 :: p') m) :
    (p' = [] ∧ v = .obj m) ∨
    (∃ m', v = .obj m' ∧ PathTo h (heapEntries h m') p' m) := by
  cases hp with
  | here hget =>
    rw [List.get?_cons_zero] at hget
    injection hget with hget
    injection hget with _ hv
    exact Or.inl ⟨rfl, hv⟩
  | step hget hp' =>
    rw [List.get?_cons_zero] at hget
    injection hget with hget
    injection hget with _ hv
    exact Or.inr ⟨_, hv, hp'⟩

theorem pathTo_not_obj {h : Heap} {nm : String} {v : RawValue}
    {rest : List (String × RawValue)} {p : List Nat} {m : ObjId}
    (hv : ∀ m', v ≠ .obj m') (hp : PathTo h ((nm, v) :: rest) p m) :
    ∃ j p', p = (j + 1) :: p' := by
  obtain ⟨i, p', rfl⟩ := pathTo_shape hp
  cases i with
  | zero =>
    rcases pathTo_zero_cases hp with ⟨_, hv'⟩ | ⟨m', hv', _⟩
    · exact absurd hv' (hv m)
    · exact absurd hv' (hv m')
  | succ j => exact ⟨j, p', rfl⟩

theorem pathTo_zero_obj {h : Heap} {nm : String} {m₀ : ObjId}
    {rest : List (String × RawValue)} {p' : List Nat} {m : ObjId}
    (hp : PathTo h ((nm, RawValue.obj m₀) :: rest) (0 :: p') m) :
    (p' = [] ∧ m = m₀) ∨ PathTo h (heapEntries h m₀) p' m := by
  rcases pathTo_zero_cases hp with ⟨hq, hv⟩ | ⟨m', hv, hin⟩
  · injection hv with hv
    exact Or.inl ⟨hq, hv.symm⟩
  · injection hv with hv
    rw [← hv] at hin
    exact Or.inr hin

/-- Soundness of a successful `validateDirContents` entry-loop run: the
seen set only grows, every raw-path-reachable mapping was fresh and gets
recorded, and each reachable mapping is reached by exactly one path. -/
theorem validateEntries_ok_spec (h : Heap)
    (step : ObjId → List ObjId → Option (Except Err (List ObjId)))
    (hstep : IntoSpec h step) :
    ∀ (entries : List (String × RawValue)) (seen seen' : List ObjId),
      validateEntries step entries seen = some (.ok seen') →
      (∃ pre, seen' = pre ++ seen) ∧
      (∀ p m, PathTo h entries p m → ¬ m ∈ seen ∧ m ∈ seen') ∧
      (∀ m p₁ p₂, PathTo h entries p₁ m → PathTo h entries p₂ m → p₁ = p₂) := by
  intro entries
  induction entries with
  | nil =>
    intro seen seen' hval
    rw [validateEntries_nil] at hval
    injection hval with hval
    injection hval with hval
    refine ⟨⟨[], hval.symm.trans (List.nil_append seen).symm⟩, ?_, ?_⟩
    · intro p m hp
      exact absurd hp pathTo_nil_entries
    · intro m p₁ p₂ hp₁ _
      exact absurd hp₁ pathTo_nil_entries
  | cons hd rest ih =>
    intro seen seen' hval
    obtain ⟨nm, v⟩ := hd
    rw [validateEntries_cons] at hval
    cases v with
    | obj m₀ =>
      have hval2 :
          (if m₀ ∈ seen then some (.error (.cycleDetected nm))
           else
             match step m₀ (m₀ :: seen) with
             | none => none
             | some (.error e) => some (.error e)
             | some (.ok seen1) => validateEntries step rest seen1) =
            some (Except.ok seen') := hval
      by_cases hm : m₀ ∈ seen
      · rw [if_pos hm] at hval2
        simp at hval2
      · rw [if_neg hm] at hval2
        cases hcall : step m₀ (m₀ :: seen) with
        | none => rw [hcall] at hval2; simp at hval2
        | some r =>
          rw [hcall] at hval2
          cases r with
          | error e => simp at hval2
          | ok seen₁ =>
            obtain ⟨⟨pre₀, hA₀⟩, hB₀, hC₀⟩ := hstep m₀ (m₀ :: seen) seen₁ hcall
            obtain ⟨⟨pre₁, hA₁⟩, hB₁, hC₁⟩ := ih seen₁ seen' hval2
            have hseen_sub : ∀ x ∈ seen, x ∈ seen₁ := by
              intro x hx
              rw [hA₀]
              exact List.mem_append_right _ (List.mem_cons_of_mem _ hx)
            have hm₀_mem : m₀ ∈ seen₁ := by
              rw [hA₀]
              exact List.mem_append_right _ (List.mem_cons_self _ _)
            have hseen₁_sub : ∀ x ∈ seen₁, x ∈ seen' := by
              intro x hx
              rw [hA₁]
              exact List.mem_append_right _ hx
            refine ⟨⟨pre₁ ++ pre₀ ++ [m₀], ?_⟩, ?_, ?_⟩
            · rw [hA₁, hA₀]
              simp
            · intro p m hp
              obtain ⟨i, p', rfl⟩ := pathTo_shape hp
              cases i with
              | zero =>
                rcases pathTo_zero_obj hp with ⟨rfl, rfl⟩ | hin
                · exact ⟨hm, hseen₁_sub _ hm₀_mem⟩
                · obtain ⟨hnot, hmem⟩ := hB₀ p' m hin
                  refine ⟨fun hx => hnot (List.mem_cons_of_mem _ hx), hseen₁_sub _ hmem⟩
              | succ j =>
                have hrest := pathTo_unshift hp
                obtain ⟨hnot, hmem⟩ := hB₁ (j :: p') m hrest
                exact ⟨fun hx => hnot (hseen_sub _ hx), hmem⟩
            · intro m p₁ p₂ hp₁ hp₂
              obtain ⟨i₁, q₁, rfl⟩ := pathTo_shape hp₁
              obtain ⟨i₂, q₂, rfl⟩ := pathTo_shape hp₂
              cases i₁ with
              | zero =>
                cases i₂ with
                | zero =>
                  rcases pathTo_zero_obj hp₁ with ⟨rfl, rfl⟩ | hin₁
                  · rcases pathTo_zero_obj hp₂ with ⟨rfl, _⟩ | hin₂
                    · rfl
                    · exact absurd (List.mem_cons_self _ _) (hB₀ q₂ _ hin₂).1
                  · rcases pathTo_zero_obj hp₂ with ⟨rfl, rfl⟩ | hin₂
                    · exact absurd (List.mem_cons_self _ _) (hB₀ q₁ _ hin₁).1
                    · rw [hC₀ m q₁ q₂ hin₁ hin₂]
                | succ j₂ =>
                  have hmem₁ : m ∈ seen₁ := by
                    rcases pathTo_zero_obj hp₁ with ⟨rfl, rfl⟩ | hin₁
                    · exact hm₀_mem
                    · exact (hB₀ q₁ m hin₁).2
                  exact absurd hmem₁ (hB₁ (j₂ :: q₂) m (pathTo_unshift hp₂)).1
              | succ j₁ =>
                cases i₂ with
                | zero =>
                  have hmem₂ : m ∈ seen₁ := by
                    rcases pathTo_zero_obj hp₂ with ⟨rfl, rfl⟩ | hin₂
                    · exact hm₀_mem
                    · exact (hB₀ q₂ m hin₂).2
                  exact absurd hmem₂ (hB₁ (j₁ :: q₁) m (pathTo_unshift hp₁)).1
                | succ j₂ =>
                  have := hC₁ m (j₁ :: q₁) (j₂ :: q₂)
                    (pathTo_unshift hp₁) (pathTo_unshift hp₂)
                  injection this with h1 h2
                  rw [h1, h2]
    | nullv => simp [rawToType] at hval
    | str s =>
      have hval2 : validateEntries step rest seen = some (Except.ok seen') := hval
      obtain ⟨hA, hB, hC⟩ := ih seen seen' hval2
      refine ⟨hA, ?_, ?_⟩
      · intro p m hp
        obtain ⟨j, p', rfl⟩ := pathTo_not_obj (fun m' => by simp) hp
        exact hB (j :: p') m (pathTo_unshift hp)
      · intro m p₁ p₂ hp₁ hp₂
        obtain ⟨j₁, q₁, rfl⟩ := pathTo_not_obj (fun m' => by simp) hp₁
        obtain ⟨j₂, q₂, rfl⟩ := pathTo_not_obj (fun m' => by simp) hp₂
        have := hC m (j₁ :: q₁) (j₂ :: q₂) (pathTo_unshift hp₁) (pathTo_unshift hp₂)
        injection this with h1 h2
        rw [h1, h2]
    | bytes bs =>
      have hval2 : validateEntries step rest seen = some (Except.ok seen') := hval
      obtain ⟨hA, hB, hC⟩ := ih seen seen' hval2
      refine ⟨hA, ?_, ?_⟩
      · intro p m hp
        obtain ⟨j, p', rfl⟩ := pathTo_not_obj (fun m' => by simp) hp
        exact hB (j :: p') m (pathTo_unshift hp)
      · intro m p₁ p₂ hp₁ hp₂
        obtain ⟨j₁, q₁, rfl⟩ := pathTo_not_obj (fun m' => by simp) hp₁
        obtain ⟨j₂, q₂, rfl⟩ := pathTo_not_obj (fun m' => by simp) hp₂
        have := hC m (j₁ :: q₁) (j₂ :: q₂) (pathTo_unshift hp₁) (pathTo_unshift hp₂)
        injection this with h1 h2
        rw [h1, h2]
    | fixture ft c =>
      have hval2 : validateEntries step rest seen = some (Except.ok seen') := hval
      obtain ⟨hA, hB, hC⟩ := ih seen seen' hval2
      refine ⟨hA, ?_, ?_⟩
      · intro p m hp
        obtain ⟨j, p', rfl⟩ := pathTo_not_obj (fun m' => by simp) hp
        exact hB (j :: p') m (pathTo_unshift hp)
      · intro m p₁ p₂ hp₁ hp₂
        obtain ⟨j₁, q₁, rfl⟩ := pathTo_not_obj (fun m' => by simp) hp₁
        obtain ⟨j₂, q₂, rfl⟩ := pathTo_not_obj (fun m' => by simp) hp₂
        have := hC m (j₁ :: q₁) (j₂ :: q₂) (pathTo_unshift hp₁) (pathTo_unshift hp₂)
        injection this with h1 h2
        rw [h1, h2]
    | num n => simp [rawToType] at hval
    | boolv b => simp [rawToType] at hval
    | undef => simp [rawToType] at hval

theorem validateInto_spec (h : Heap) : ∀ fuel, IntoSpec h (validateInto h fuel) := by
  intro fuel
  induction fuel with
  | zero =>
    intro m seen r hr
    simp [validateInto] at hr
  | succ n ih =>
    intro m seen r hr
    rw [validateInto_succ] at hr
    exact validateEntries_ok_spec h _ ih _ _ _ hr

theorem validateEntries_seen_wf (h : Heap)
    (step : ObjId → List ObjId → Option (Except Err (List ObjId)))
    (hstep : IntoWf h step) :
    ∀ (entries : List (String × RawValue)) (seen seen' : List ObjId),
      entGood h.length entries →
      validateEntries step entries seen = some (.ok seen') →
      seen.Nodup → (∀ x ∈ seen, x < h.length) →
      seen'.Nodup ∧ ∀ x ∈ seen', x < h.length := by
  intro entries
  induction entries with
  | nil =>
    intro seen seen' _ hval hnd hb
    rw [validateEntries_nil] at hval
    injection hval with hval
    injection hval with hval
    rw [← hval]
    exact ⟨hnd, hb⟩
  | cons hd rest ih =>
    intro seen seen' hent hval hnd hb
    obtain ⟨nm, v⟩ := hd
    have hent' : entGood h.length rest := fun kv hkv => hent kv (List.mem_cons_of_mem _ hkv)
    rw [validateEntries_cons] at hval
    cases v with
    | obj m₀ =>
      have hval2 :
          (if m₀ ∈ seen then some (.error (.cycleDetected nm))
           else
             match step m₀ (m₀ :: seen) with
             | none => none
             | some (.error e) => some (.error e)
             | some (.ok seen1) => validateEntries step rest seen1) =
            some (Except.ok seen') := hval
      by_cases hm : m₀ ∈ seen
      · rw [if_pos hm] at hval2
        simp at hval2
      · rw [if_neg hm] at hval2
        cases hcall : step m₀ (m₀ :: seen) with
        | none => rw [hcall] at hval2; simp at hval2
        | some r =>
          rw [hcall] at hval2
          cases r with
          | error e => simp at hval2
          | ok seen₁ =>
            have hm₀lt : m₀ < h.length :=
              (hent _ (List.mem_cons_self _ _)).2 m₀ rfl
            have hnd₁ : (m₀ :: seen).Nodup := List.nodup_cons.mpr ⟨hm, hnd⟩
            have hb₁ : ∀ x ∈ m₀ :: seen, x < h.length := by
              intro x hx
              rcases List.mem_cons.mp hx with rfl | hx'
              · exact hm₀lt
              · exact hb x hx'
            obtain ⟨hnd₂, hb₂⟩ := hstep m₀ (m₀ :: seen) seen₁ hcall hnd₁ hb₁
            exact ih seen₁ seen' hent' hval2 hnd₂ hb₂
    | nullv => simp [rawToType] at hval
    | str s => exact ih seen seen' hent' hval hnd hb
    | bytes bs => exact ih seen seen' hent' hval hnd hb
    | fixture ft c => exact ih seen seen' hent' hval hnd hb
    | num n => simp [rawToType] at hval
    | boolv b => simp [rawToType] at hval
    | undef => simp [rawToType] at hval

theorem validateInto_wf (h : Heap) (hg : goodHeap h = true) :
    ∀ fuel, IntoWf h (validateInto h fuel) := by
  intro fuel
  induction fuel with
  | zero =>
    intro m seen r hr
    simp [validateInto] at hr
  | succ n ih =>
    intro m seen r hr hnd hb
    rw [validateInto_succ] at hr
    exact validateEntries_seen_wf h _ ih _ _ _ (goodHeap_entries hg m) hr hnd hb

theorem validateEntries_progress (h : Heap) (hg : goodHeap h = true) :
    ∀ (fuel : Nat) (entries : List (String × RawValue)) (seen : List ObjId),
      entGood h.length entries → seen.Nodup → (∀ x ∈ seen, x < h.length) →
      h.length + 1 ≤ fuel + seen.length →
      validateEntries (validateInto h fuel) entries seen ≠ none := by
  intro fuel
  induction fuel with
  | zero =>
    intro entries seen _ hnd hb harith
    have := nodup_bounded_length hnd hb
    omega
  | succ n ihf =>
    intro entries
    induction entries with
    | nil =>
      intro seen _ _ _ _
      rw [validateEntries_nil]
      simp
    | cons hd rest ihe =>
      intro seen hent hnd hb harith
      obtain ⟨nm, v⟩ := hd
      have hent' : entGood h.length rest := fun kv hkv => hent kv (List.mem_cons_of_mem _ hkv)
      rw [validateEntries_cons]
      cases v with
      | obj m₀ =>
        show (if m₀ ∈ seen then some (.error (.cycleDetected nm))
              else
                match validateInto h (n + 1) m₀ (m₀ :: seen) with
                | none => none
                | some (.error e) => some (.error e)
                | some (.ok seen1) =>
                  validateEntries (validateInto h (n + 1)) rest seen1) ≠ none
        by_cases hm : m₀ ∈ seen
        · simp [hm]
        · rw [if_neg hm]
          have hm₀lt : m₀ < h.length := (hent _ (List.mem_cons_self _ _)).2 m₀ rfl
          have hnd₁ : (m₀ :: seen).Nodup := List.nodup_cons.mpr ⟨hm, hnd⟩
          have hb₁ : ∀ x ∈ m₀ :: seen, x < h.length := by
            intro x hx
            rcases List.mem_cons.mp hx with rfl | hx'
            · exact hm₀lt
            · exact hb x hx'
          have hinner : validateEntries (validateInto h n) (heapEntries h m₀)
              (m₀ :: seen) ≠ none := by
            apply ihf (heapEntries h m₀) (m₀ :: seen) (goodHeap_entries hg m₀) hnd₁ hb₁
            simp only [List.length_cons]
            omega
          cases hcall : validateInto h (n + 1) m₀ (m₀ :: seen) with
          | none =>
            rw [validateInto_succ] at hcall
            exact absurd hcall hinner
          | some r =>
            cases r with
            | error e => simp
            | ok seen₁ =>
              obtain ⟨⟨pre, hA⟩, _, _⟩ := validateInto_spec h (n + 1) m₀ (m₀ :: seen) seen₁ hcall
              obtain ⟨hnd₂, hb₂⟩ := validateInto_wf h hg (n + 1) m₀ (m₀ :: seen) seen₁ hcall hnd₁ hb₁
              have hlen : seen.length + 1 ≤ seen₁.length := by
                have := congrArg List.length hA
                simp only [List.length_append, List.length_cons] at this
                omega
              apply ihe seen₁ hent' hnd₂ hb₂
              omega
      | nullv =>
        have := (hent _ (List.mem_cons_self _ _)).1
        simp [validLeaf] at this
      | str s => exact ihe seen hent' hnd hb harith
      | bytes bs => exact ihe seen hent' hnd hb harith
      | fixture ft c => exact ihe seen hent' hnd hb harith
      | num n' =>
        have := (hent _ (List.mem_cons_self _ _)).1
        simp [validLeaf] at this
      | boolv b =>
        have := (hent _ (List.mem_cons_self _ _)).1
        simp [validLeaf] at this
      | undef =>
        have := (hent _ (List.mem_cons_self _ _)).1
        simp [validLeaf] at this

theorem validateEntries_cycle_error (h : Heap) (hg : goodHeap h = true) :
    ∀ (fuel : Nat) (entries : List (String × RawValue)) (seen : List ObjId) (e : Err),
      entGood h.length entries →
      validateEntries (validateInto h fuel) entries seen = some (.error e) →
      ∃ name, e = Err.cycleDetected name := by
  intro fuel
  induction fuel with
  | zero =>
    intro entries
    induction entries with
    | nil =>
      intro seen e _ hval
      rw [validateEntries_nil] at hval
      simp at hval
    | cons hd rest ihe =>
      intro seen e hent hval
      obtain ⟨nm, v⟩ := hd
      have hent' : entGood h.length rest := fun kv hkv => hent kv (List.mem_cons_of_mem _ hkv)
      rw [validateEntries_cons] at hval
      cases v with
      | obj m₀ =>
        have hval2 :
            (if m₀ ∈ seen then some (.error (.cycleDetected nm))
             else
               match validateInto h 0 m₀ (m₀ :: seen) with
               | none => none
               | some (.error e') => some (.error e')
               | some (.ok seen1) =>
                 validateEntries (validateInto h 0) rest seen1) =
              some (Except.error e) := hval
        by_cases hm : m₀ ∈ seen
        · rw [if_pos hm] at hval2
          injection hval2 with hval2
          injection hval2 with hval2
          exact ⟨nm, hval2.symm⟩
        · rw [if_neg hm] at hval2
          simp [validateInto] at hval2
      | nullv =>
        have := (hent _ (List.mem_cons_self _ _)).1
        simp [validLeaf] at this
      | str s => exact ihe seen e hent' hval
      | bytes bs => exact ihe seen e hent' hval
      | fixture ft c => exact ihe seen e hent' hval
      | num n' =>
        have := (hent _ (List.mem_cons_self _ _)).1
        simp [validLeaf] at this
      | boolv b =>
        have := (hent _ (List.mem_cons_self _ _)).1
        simp [validLeaf] at this
      | undef =>
        have := (hent _ (List.mem_cons_self _ _)).1
        simp [validLeaf] at this
  | succ n ihf =>
    intro entries
    induction entries with
    | nil =>
      intro seen e _ hval
      rw [validateEntries_nil] at hval
      simp at hval
    | cons hd rest ihe =>
      intro seen e hent hval
      obtain ⟨nm, v⟩ := hd
      have hent' : entGood h.length rest := fun kv hkv => hent kv (List.mem_cons_of_mem _ hkv)
      rw [validateEntries_cons] at hval
      cases v with
      | obj m₀ =>
        have hval2 :
            (if m₀ ∈ seen then some (.error (.cycleDetected nm))
             else
               match validateInto h (n + 1) m₀ (m₀ :: seen) with
               | none => none
               | some (.error e') => some (.error e')
               | some (.ok seen1) =>
                 validateEntries (validateInto h (n + 1)) rest seen1) =
              some (Except.error e) := hval
        by_cases hm : m₀ ∈ seen
        · rw [if_pos hm] at hval2
          injection hval2 with hval2
          injection hval2 with hval2
          exact ⟨nm, hval2.symm⟩
        · rw [if_neg hm] at hval2
          cases hcall : validateInto h (n + 1) m₀ (m₀ :: seen) with
          | none => rw [hcall] at hval2; simp at hval2
          | some r =>
            cases r with
            | error e' =>
              rw [hcall] at hval2
              injection hval2 with hval2
              injection hval2 with hval2
              rw [validateInto_succ] at hcall
              obtain ⟨name, rfl⟩ :=
                ihf (heapEntries h m₀) (m₀ :: seen) e' (goodHeap_entries hg m₀) hcall
              exact ⟨name, hval2.symm⟩
            | ok seen₁ =>
              rw [hcall] at hval2
              exact ihe seen₁ e hent' hval2
      | nullv =>
        have := (hent _ (List.mem_cons_self _ _)).1
        simp [validLeaf] at this
      | str s => exact ihe seen e hent' hval
      | bytes bs => exact ihe seen e hent' hval
      | fixture ft c => exact ihe seen e hent' hval
      | num n' =>
        have := (hent _ (List.mem_cons_self _ _)).1
        simp [validLeaf] at this
      | boolv b =>
        have := (hent _ (List.mem_cons_self _ _)).1
        simp [validLeaf] at this
      | undef =>
        have := (hent _ (List.mem_cons_self _ _)).1
        simp [validLeaf] at this

/-- **C4 (amended).** For every directory mapping `d` of a heap whose
leaf values are all admissible shapes (strings, byte sequences,
mappings, tagged nodes — so that no earlier invalid-leaf error
preempts), if the *raw-mapping* entry traversal from `d` re-encounters a
mapping — it leads back to `d` itself, or reaches some mapping along two
distinct entry paths (a true cycle, or the same mapping object shared at
two positions) — then constructing a directory `Fixture` over `d` fails
with `CycleDetectedError`.  Contrary to the original claim, references
wrapped inside already-tagged `Fixture` nodes are *not* followed by the
traversal (see the counterexample). -/
theorem raw_cycle_detected (h : Heap) (d : ObjId) (fuel : Nat)
    (hg : goodHeap h = true) (hd : d < h.length) (hfuel : h.length ≤ fuel)
    (hcyc : RevisitsMapping h d) :
    isCycleErr (fixtureNew h fuel .dir (.obj d)) = true := by
  rw [fixtureNew_dir_obj]
  cases hval : validateEntries (validateInto h fuel) (heapEntries h d) [d] with
  | none =>
    have hprog := validateEntries_progress h hg fuel (heapEntries h d) [d]
      (goodHeap_entries hg d) (List.nodup_singleton d)
      (by intro x hx; rw [List.mem_singleton] at hx; rw [hx]; exact hd)
      (by simp only [List.length_singleton]; omega)
    exact absurd hval hprog
  | some r =>
    cases r with
    | ok seen' =>
      obtain ⟨_, hB, hC⟩ :=
        validateEntries_ok_spec h _ (validateInto_spec h fuel) _ _ _ hval
      rcases hcyc with ⟨p, hp⟩ | ⟨m, p₁, p₂, hne, hp₁, hp₂⟩
      · exact absurd (List.mem_singleton_self d) (hB p d hp).1
      · exact absurd (hC m p₁ p₂ hp₁ hp₂) hne
    | error e =>
      obtain ⟨name, rfl⟩ :=
        validateEntries_cycle_error h hg fuel (heapEntries h d) [d] e
          (goodHeap_entries hg d) hval
      rfl

/-- Witness for C4 (amended): the cyclic raw mapping `d = { a: { d: d } }`
from the repository's own test suite is rejected with `CycleDetectedError`. -/
theorem raw_cycle_detected_witness :
    isCycleErr (fixtureNew heapRawCycle 2 .dir (.obj 0)) = true :=
  raw_cycle_detected heapRawCycle 0 2 (by decide) (by decide) (by decide)
    (Or.inl ⟨[0, 0],
      @PathTo.step heapRawCycle (heapEntries heapRawCycle 0) 0 "a" 1 0 [0] rfl
        (@PathTo.here heapRawCycle (heapEntries heapRawCycle 1) 0 "d" 0 rfl)⟩)
